import Mathlib

/-!
Verification of the version-resolution core of `setup-goplus`
(`install/install.go`), a Go module that resolves a requested Go+ version
specification against the tags and branches of the upstream repository.

The embedding models Go strings as lists of characters (`Str`).  Go compares
and slices strings bytewise; every string manipulated by this program is
ASCII, for which bytewise order and character-code order coincide.  The
third-party dependency `github.com/Masterminds/semver/v3` (version parsing,
comparison and constraint checking) is embedded in the `Semver` namespace,
modelled from that library's v3 sources; the functions of `install.go`
itself are embedded in the `Install` namespace.
-/

set_option linter.unusedVariables false

namespace SetupGop

/-- Go strings, modelled as lists of characters. -/
abbrev Str := List Char

/-- Embed a Lean string literal into the `Str` model. -/
def str (s : String) : Str := s.toList

/-- Model of Go `strings.TrimPrefix(s, pre)`: drops `pre` when it is a
prefix of `s`, otherwise returns `s` unchanged. -/
def trimPrefixGoStr (s pre : Str) : Str :=
  if pre.isPrefixOf s then s.drop pre.length else s

/-- Model of Go `strings.Split(s, sep)` for a one-character separator:
splits at every occurrence, keeping empty pieces; splitting the empty
string yields `[""]`. -/
def splitChar (sep : Char) : Str → List Str
  | [] => [[]]
  | c :: cs =>
    if c = sep then [] :: splitChar sep cs
    else
      match splitChar sep cs with
      | [] => [[c]]
      | p :: ps => (c :: p) :: ps

/-- Split a string at the first occurrence of `sep`: the part before it
and, when `sep` occurs, the part after it. -/
def splitFirst (sep : Char) : Str → Str × Option Str
  | [] => ([], none)
  | c :: cs =>
    if c = sep then ([], some cs)
    else
      let r := splitFirst sep cs
      (c :: r.1, r.2)

/-- ASCII decimal digit, by character code (Go examines bytes). -/
def isDigitC (c : Char) : Bool := 48 ≤ c.toNat && c.toNat ≤ 57

/-- Characters allowed in semver pre-release and build-metadata
identifiers: ASCII alphanumerics and hyphen. -/
def isIdentC (c : Char) : Bool :=
  isDigitC c || (97 ≤ c.toNat && c.toNat ≤ 122) || (65 ≤ c.toNat && c.toNat ≤ 90) ||
    c.toNat = 45

/-- Numeric value of a digit string (meaningful on all-digit strings). -/
def readNat (cs : Str) : Nat := cs.foldl (fun a c => a * 10 + (c.toNat - 48)) 0

/-- Model of Go `strconv.ParseUint(s, 10, 64)`: succeeds exactly on
nonempty all-digit strings whose value fits in 64 bits. -/
def parseUint64 (cs : Str) : Option Nat :=
  if cs ≠ [] ∧ cs.all isDigitC ∧ readNat cs < 2 ^ 64 then some (readNat cs) else none

/-- The decimal digit character for `d < 10`. -/
def digitCh (d : Nat) : Char := Nat.digitChar d

/-- Decimal digit characters of `n`, most significant first; fuel-based
model of Go's `%d` formatting. -/
def natToStrAux : Nat → Nat → Str → Str
  | 0, _, acc => acc
  | fuel + 1, n, acc =>
    if n < 10 then digitCh n :: acc
    else natToStrAux fuel (n / 10) (digitCh (n % 10) :: acc)

/-- Decimal representation of `n` (model of Go's `%d`). -/
def natToStr (n : Nat) : Str := natToStrAux (n + 1) n []

/-- A digit string with no superfluous leading zero. -/
def canonicalDigits (cs : Str) : Prop :=
  cs.length = 1 ∨ cs.head? ≠ some '0'

theorem digitCh_toNat {d : Nat} (h : d < 10) : (digitCh d).toNat = 48 + d := by
  interval_cases d <;> decide

theorem digitCh_isDigit {d : Nat} (h : d < 10) : isDigitC (digitCh d) = true := by
  interval_cases d <;> decide

theorem char_eq_of_toNat_eq {c d : Char} (h : c.toNat = d.toNat) : c = d :=
  Char.ext (UInt32.toNat.inj h)

theorem digitCh_eq_of_isDigit {c : Char} (h : isDigitC c = true) :
    digitCh (c.toNat - 48) = c := by
  simp only [isDigitC, Bool.and_eq_true, decide_eq_true_eq] at h
  apply char_eq_of_toNat_eq
  rw [digitCh_toNat (by omega)]
  omega

theorem isDigitC_toNat {c : Char} (h : isDigitC c = true) :
    48 ≤ c.toNat ∧ c.toNat ≤ 57 := by
  simp only [isDigitC, Bool.and_eq_true, decide_eq_true_eq] at h
  exact h

theorem readNat_append_singleton (xs : Str) (c : Char) :
    readNat (xs ++ [c]) = 10 * readNat xs + (c.toNat - 48) := by
  simp [readNat, List.foldl_append, Nat.mul_comm]

theorem readNat_go_lower (cs : Str) (a : Nat) :
    a * 10 ^ cs.length ≤ cs.foldl (fun a c => a * 10 + (c.toNat - 48)) a := by
  induction cs generalizing a with
  | nil => simp
  | cons c cs ih =>
    simp only [List.foldl_cons, List.length_cons]
    calc a * 10 ^ (cs.length + 1) = a * 10 * 10 ^ cs.length := by ring
    _ ≤ (a * 10 + (c.toNat - 48)) * 10 ^ cs.length := by
        exact Nat.mul_le_mul_right _ (by omega)
    _ ≤ _ := ih _

theorem readNat_pos {cs : Str} (hne : cs ≠ [])
    (hd : ∀ c ∈ cs, isDigitC c = true) (h0 : cs.head? ≠ some '0') :
    0 < readNat cs := by
  match cs, hne with
  | c :: cs', _ =>
    have hdig := isDigitC_toNat (hd c (by simp))
    have hc0 : c ≠ '0' := by
      intro h; exact h0 (by simp [h])
    have hcv : c.toNat ≠ 48 := by
      intro h
      exact hc0 (char_eq_of_toNat_eq (by rw [h]; decide))
    have hlow := readNat_go_lower cs' (0 * 10 + (c.toNat - 48))
    have hpow : 0 < 10 ^ cs'.length := pow_pos (by omega) _
    have hmul : 0 < (0 * 10 + (c.toNat - 48)) * 10 ^ cs'.length :=
      Nat.mul_pos (by omega) hpow
    simp only [readNat, List.foldl_cons]
    omega

theorem lt_ten_pow (n : Nat) : n < 10 ^ (n + 1) := by
  induction n with
  | zero => decide
  | succ n ih =>
    have h1 : 1 ≤ 10 ^ (n + 1) := Nat.one_le_pow _ _ (by omega)
    have h2 : 10 ^ (n + 2) = 10 * 10 ^ (n + 1) := by ring
    omega

theorem natToStrAux_fuel (n : Nat) : ∀ fuel₁ fuel₂ acc,
    n < 10 ^ fuel₁ → n < 10 ^ fuel₂ → 0 < fuel₁ → 0 < fuel₂ →
    natToStrAux fuel₁ n acc = natToStrAux fuel₂ n [] ++ acc := by
  induction n using Nat.strong_induction_on with
  | _ n ih =>
    intro fuel₁ fuel₂ acc h₁ h₂ hf₁ hf₂
    match fuel₁, fuel₂ with
    | 0, _ => omega
    | _ + 1, 0 => omega
    | f₁ + 1, f₂ + 1 =>
      by_cases hn : n < 10
      · simp [natToStrAux, hn]
      · have hdiv : n / 10 < n := Nat.div_lt_self (by omega) (by omega)
        have hb₁ : n / 10 < 10 ^ f₁ := by
          have : n < 10 * 10 ^ f₁ := by
            calc n < 10 ^ (f₁ + 1) := h₁
            _ = 10 * 10 ^ f₁ := by ring
          omega
        have hb₂ : n / 10 < 10 ^ f₂ := by
          have : n < 10 * 10 ^ f₂ := by
            calc n < 10 ^ (f₂ + 1) := h₂
            _ = 10 * 10 ^ f₂ := by ring
          omega
        have hq : n / 10 < 10 ^ (n / 10 + 1) := lt_ten_pow _
        have hg₁ : 0 < f₁ := by
          rcases Nat.eq_zero_or_pos f₁ with h0 | h0
          · subst h0; simp at hb₁; omega
          · exact h0
        have hg₂ : 0 < f₂ := by
          rcases Nat.eq_zero_or_pos f₂ with h0 | h0
          · subst h0; simp at hb₂; omega
          · exact h0
        simp only [natToStrAux, if_neg hn]
        rw [ih _ hdiv f₁ (n / 10 + 1) _ hb₁ hq hg₁ (by omega),
            ih _ hdiv f₂ (n / 10 + 1) _ hb₂ hq hg₂ (by omega)]
        simp

theorem natToStr_small {n : Nat} (h : n < 10) : natToStr n = [digitCh n] := by
  simp [natToStr, natToStrAux, h]

theorem natToStr_step {n : Nat} (h : 10 ≤ n) :
    natToStr n = natToStr (n / 10) ++ [digitCh (n % 10)] := by
  conv_lhs => rw [natToStr]
  simp only [natToStrAux, if_neg (by omega : ¬ n < 10)]
  rw [natToStrAux_fuel (n / 10) n (n / 10 + 1) _ ?_ (lt_ten_pow _) (by omega) (by omega)]
  · rfl
  · have hd : n / 10 < n := Nat.div_lt_self (by omega) (by omega)
    have hp : n - 1 < 10 ^ n := by
      have := lt_ten_pow (n - 1)
      have he : n - 1 + 1 = n := by omega
      rw [he] at this
      exact this
    omega

theorem natToStr_readNat (n : Nat) : readNat (natToStr n) = n := by
  induction n using Nat.strong_induction_on with
  | _ n ih =>
    by_cases h : n < 10
    · rw [natToStr_small h]
      simp [readNat, digitCh_toNat h]
    · rw [natToStr_step (by omega), readNat_append_singleton,
        ih (n / 10) (Nat.div_lt_self (by omega) (by omega)),
        digitCh_toNat (Nat.mod_lt _ (by omega))]
      omega

theorem natToStr_digits (n : Nat) : ∀ c ∈ natToStr n, isDigitC c = true := by
  induction n using Nat.strong_induction_on with
  | _ n ih =>
    by_cases h : n < 10
    · rw [natToStr_small h]
      intro c hc
      simp at hc
      subst hc
      exact digitCh_isDigit h
    · rw [natToStr_step (by omega)]
      intro c hc
      rcases List.mem_append.mp hc with h' | h'
      · exact ih (n / 10) (Nat.div_lt_self (by omega) (by omega)) c h'
      · simp at h'
        subst h'
        exact digitCh_isDigit (Nat.mod_lt _ (by omega))

theorem natToStr_ne_nil (n : Nat) : natToStr n ≠ [] := by
  by_cases h : n < 10
  · rw [natToStr_small h]; simp
  · rw [natToStr_step (by omega)]; simp

theorem natToStr_canonical (n : Nat) : canonicalDigits (natToStr n) := by
  induction n using Nat.strong_induction_on with
  | _ n ih =>
    by_cases h : n < 10
    · left
      rw [natToStr_small h]
      rfl
    · right
      rw [natToStr_step (by omega)]
      have hrec := ih (n / 10) (Nat.div_lt_self (by omega) (by omega))
      have hpos : 0 < n / 10 := by omega
      have hread : readNat (natToStr (n / 10)) = n / 10 := natToStr_readNat _
      rcases hx : natToStr (n / 10) with _ | ⟨c, cs⟩
      · exact absurd hx (natToStr_ne_nil _)
      · simp only [List.cons_append, List.head?_cons]
        intro hcon
        injection hcon with hc
        rw [hx] at hrec hread
        rcases hrec with h1 | h1
        · have hcs : cs = [] := by
            simpa using h1
          subst hcs hc
          simp [readNat] at hread
          omega
        · simp only [List.head?_cons] at h1
          exact h1 (by rw [hc])

theorem readNat_natToStr_canonical {cs : Str} (hne : cs ≠ [])
    (hd : ∀ c ∈ cs, isDigitC c = true) (hcan : canonicalDigits cs) :
    natToStr (readNat cs) = cs := by
  induction cs using List.reverseRecOn with
  | nil => exact absurd rfl hne
  | append_singleton xs c ih =>
    have hc : isDigitC c = true := hd c (by simp)
    have hcd := isDigitC_toNat hc
    rw [readNat_append_singleton]
    by_cases hxs : xs = []
    · subst hxs
      simp only [readNat, List.foldl_nil, Nat.mul_zero, Nat.zero_add]
      rw [natToStr_small (by omega)]
      rw [digitCh_eq_of_isDigit hc]
      simp
    · have hxsd : ∀ c ∈ xs, isDigitC c = true := fun c hc => hd c (by simp [hc])
      have hxs0 : xs.head? ≠ some '0' := by
        rcases hcan with h1 | h1
        · exfalso
          have : xs.length + 1 = 1 := by simpa using h1
          have : xs = [] := List.eq_nil_of_length_eq_zero (by omega)
          exact hxs this
        · intro hcon
          apply h1
          match xs, hxs with
          | x :: xs', _ =>
            simp only [List.head?_cons, Option.some_inj] at hcon
            simp [hcon]
      have hpos := readNat_pos hxs hxsd hxs0
      have hcan' : canonicalDigits xs := Or.inr hxs0
      rw [natToStr_step (by omega)]
      have h10 : (10 * readNat xs + (c.toNat - 48)) / 10 = readNat xs := by omega
      have hmod : (10 * readNat xs + (c.toNat - 48)) % 10 = c.toNat - 48 := by omega
      rw [h10, hmod, ih hxs hxsd hcan', digitCh_eq_of_isDigit hc]

/-!  ## Model of `github.com/Masterminds/semver/v3`

`Version`, `NewVersion`, `String`, `Compare` and the constraint machinery
(`NewConstraint`, `Constraints.Check`, including the `rewriteRange` step
that turns hyphen ranges such as `"1.0.0 - 2.0.0"` into
`">= 1.0.0, <= 2.0.0"` before parsing), embedded from the library's v3
sources.  -/

/-- Model of `semver.Version`: numeric major/minor/patch plus the raw
pre-release and build-metadata identifier strings.  As in the Go struct, an
empty `pre` (resp. `meta`) means the identifier is absent. -/
structure Version where
  major : Nat
  minor : Nat
  patch : Nat
  pre : Str
  meta : Str
deriving DecidableEq, Repr

/-- Model of `validatePrerelease`: each dot-separated part is a nonempty run
of `[0-9A-Za-z-]` (the shape the version regex guarantees), and an
all-numeric part must not have a superfluous leading zero. -/
def validPreParts (p : Str) : Bool :=
  (splitChar '.' p).all fun part =>
    !part.isEmpty && part.all isIdentC &&
      (!(part.all isDigitC) || part.length == 1 || part.head? != some '0')

/-- Model of `validateMetadata` together with the regex shape: each
dot-separated part is a nonempty run of `[0-9A-Za-z-]`. -/
def validMetaParts (m : Str) : Bool :=
  (splitChar '.' m).all fun part => !part.isEmpty && part.all isIdentC

/-- Model of `semver.NewVersion`: the anchored regex
`v?NUM(.NUM)?(.NUM)?(-PRE)?(+META)?` with `NUM = [0-9]+` parsed by
`strconv.ParseUint(_, 10, 64)` and `PRE`/`META` dot-separated
`[0-9A-Za-z-]+` identifiers, followed by `validatePrerelease` /
`validateMetadata`.  A missing minor or patch component defaults to `0`.
Since `+` never occurs before the metadata and `-` never occurs before the
pre-release, the regex is equivalent to splitting at the first `+`, then at
the first `-` of what precedes it. -/
def parseComps (nums : Str) : Option (Nat × Nat × Nat) :=
  match splitChar '.' nums with
  | [a] =>
    match parseUint64 a with
    | some ma => some (ma, 0, 0)
    | none => none
  | [a, b] =>
    match parseUint64 a, parseUint64 b with
    | some ma, some mb => some (ma, mb, 0)
    | _, _ => none
  | [a, b, c] =>
    match parseUint64 a, parseUint64 b, parseUint64 c with
    | some ma, some mb, some mc => some (ma, mb, mc)
    | _, _, _ => none
  | _ => none

/-- Assemble a `Version` from the numeric components and the optional
pre-release / build-metadata captures, validating the latter. -/
def mkVersion (comps : Option (Nat × Nat × Nat)) (preOpt metaOpt : Option Str) :
    Option Version :=
  match comps with
  | none => none
  | some (ma, mb, mc) =>
    if preOpt.isSome && !validPreParts (preOpt.getD []) then none
    else if metaOpt.isSome && !validMetaParts (metaOpt.getD []) then none
    else some ⟨ma, mb, mc, preOpt.getD [], metaOpt.getD []⟩

def newVersion (s : Str) : Option Version :=
  let s1 := if s.head? = some 'v' then s.tail else s
  let pm := splitFirst '+' s1
  let pp := splitFirst '-' pm.1
  mkVersion (parseComps pp.1) pp.2 pm.2

/-- Model of `Version.String()`: normalized
`major.minor.patch[-pre][+meta]`, never with a leading `v`. -/
def vString (v : Version) : Str :=
  natToStr v.major ++ '.' :: natToStr v.minor ++ '.' :: natToStr v.patch ++
    (if v.pre = [] then [] else '-' :: v.pre) ++
    (if v.meta = [] then [] else '+' :: v.meta)

/-- Model of `compareSegment`. -/
def compareSegment (a b : Nat) : Int :=
  if a < b then -1 else if b < a then 1 else 0

/-- Model of Go bytewise string comparison (all strings compared by this
program are ASCII, where byte order is character-code order). -/
def goCmpChars : Str → Str → Int
  | [], [] => 0
  | [], _ :: _ => -1
  | _ :: _, [] => 1
  | a :: as, b :: bs =>
    if a.toNat < b.toNat then -1
    else if b.toNat < a.toNat then 1
    else goCmpChars as bs

/-- Model of `comparePrePart`: equal parts are equal; an empty part sorts
lowest; a part parsing as a 64-bit number sorts below any non-numeric part;
numbers compare by value and everything else by Go string order. -/
def comparePrePart (s o : Str) : Int :=
  if s = o then 0
  else if s = [] then (if o ≠ [] then -1 else 1)
  else if o = [] then (if s ≠ [] then 1 else -1)
  else
    match parseUint64 o, parseUint64 s with
    | none, none => if 0 < goCmpChars s o then 1 else -1
    | none, some _ => -1
    | some _, none => 1
    | some oi, some si => if oi < si then 1 else -1

/-- `comparePreParts [] os`: the remaining loop iterations of
`comparePrerelease` once the first identifier list is exhausted. -/
def comparePrePartsNilL : List Str → Int
  | [] => 0
  | o :: os =>
    let d := comparePrePart [] o
    if d ≠ 0 then d else comparePrePartsNilL os

/-- `comparePreParts ss []`: the remaining loop iterations of
`comparePrerelease` once the second identifier list is exhausted. -/
def comparePrePartsNilR : List Str → Int
  | [] => 0
  | s :: ss =>
    let d := comparePrePart s []
    if d ≠ 0 then d else comparePrePartsNilR ss

/-- Model of the part-by-part loop of `comparePrerelease`, which pads the
shorter identifier list with empty parts. -/
def comparePreParts : List Str → List Str → Int
  | [], os => comparePrePartsNilL os
  | s :: ss, [] =>
    let d := comparePrePart s []
    if d ≠ 0 then d else comparePrePartsNilR ss
  | s :: ss, o :: os =>
    let d := comparePrePart s o
    if d ≠ 0 then d else comparePreParts ss os

/-- Model of `comparePrerelease`: split both pre-release strings on `.` and
compare part by part. -/
def comparePrerelease (s o : Str) : Int :=
  comparePreParts (splitChar '.' s) (splitChar '.' o)

/-- Model of `Version.Compare`: major, minor and patch numerically; a
version with a pre-release sorts before the same numeric version without
one; build metadata is ignored. -/
def compareV (v o : Version) : Int :=
  let d1 := compareSegment v.major o.major
  if d1 ≠ 0 then d1 else
  let d2 := compareSegment v.minor o.minor
  if d2 ≠ 0 then d2 else
  let d3 := compareSegment v.patch o.patch
  if d3 ≠ 0 then d3 else
  if v.pre = [] ∧ o.pre = [] then 0
  else if v.pre = [] then 1
  else if o.pre = [] then -1
  else comparePrerelease v.pre o.pre

/-- One parsed constraint clause: the operator, the comparison version and
the wildcard ("dirty") flags, as in Masterminds `constraint`. -/
structure Clause where
  op : Str
  con : Version
  dirty : Bool
  minorDirty : Bool
  patchDirty : Bool
deriving DecidableEq, Repr

/-- A parsed constraint set: the outer list is `||`-separated alternatives,
the inner lists are conjunctions of clauses. -/
abbrev Constraints := List (List Clause)

/-- Whitespace as matched by `\s` in Go's regexp package. -/
def isSpaceC (c : Char) : Bool :=
  c == ' ' || c == '\t' || c == '\n' || c == '\r' || c.toNat == 12

/-- The characters of a constraint-version component, `[0-9|x|X|\*]` in the
Masterminds regex (which literally includes `|`). -/
def isCompC (c : Char) : Bool :=
  isDigitC c || c == 'x' || c == 'X' || c == '*' || c == '|'

/-- Model of Masterminds `isX`. -/
def isX (p : Str) : Bool := p == str "x" || p == str "*" || p == str "X"

/-- The matched component groups of one constraint version token:
`m3` = major, `m4` = `.minor` (or empty), `m5` = `.patch` (or empty),
`m6` = `-pre` (or empty), `m8` = `+meta` (or empty). -/
structure VerTok where
  m3 : Str
  m4 : Str
  m5 : Str
  m6 : Str
  m8 : Str
deriving Repr

/-- Greedily scan `P(.P)*` where `P` is a nonempty run of characters
satisfying `valid`; returns the consumed characters and the rest. -/
def scanIdentSeq (valid : Char → Bool) : Nat → Str → Option (Str × Str)
  | 0, _ => none
  | fuel + 1, s =>
    let p := s.takeWhile valid
    let rest := s.dropWhile valid
    if p.isEmpty then none
    else
      match rest with
      | '.' :: rest' =>
        match scanIdentSeq valid fuel rest' with
        | some (q, rest'') => some (p ++ '.' :: q, rest'')
        | none => some (p, rest)
      | _ => some (p, rest)

/-- Scan one constraint version token
`v?C(.C)?(.C)?(-PRE)?(+META)?` (`C = [0-9xX*|]+`) from the front of the
input; greedy, as the Masterminds regex. -/
def scanVerTok (s : Str) : Option (VerTok × Str) :=
  let s1 := if s.head? = some 'v' then s.tail else s
  let m3 := s1.takeWhile isCompC
  if m3.isEmpty then none
  else
    let r1 := s1.dropWhile isCompC
    let s4 :=
      match r1 with
      | '.' :: rest =>
        let p := rest.takeWhile isCompC
        if p.isEmpty then (([] : Str), r1) else ('.' :: p, rest.dropWhile isCompC)
      | _ => (([] : Str), r1)
    let s5 :=
      match s4.2 with
      | '.' :: rest =>
        let p := rest.takeWhile isCompC
        if p.isEmpty then (([] : Str), s4.2) else ('.' :: p, rest.dropWhile isCompC)
      | _ => (([] : Str), s4.2)
    let s6 :=
      match s5.2 with
      | '-' :: rest =>
        match scanIdentSeq isIdentC (rest.length + 1) rest with
        | some (q, rest') => ('-' :: q, rest')
        | none => (([] : Str), s5.2)
      | _ => (([] : Str), s5.2)
    let s8 :=
      match s6.2 with
      | '+' :: rest =>
        match scanIdentSeq isIdentC (rest.length + 1) rest with
        | some (q, rest') => ('+' :: q, rest')
        | none => (([] : Str), s6.2)
      | _ => (([] : Str), s6.2)
    some (⟨m3, s4.1, s5.1, s6.1, s8.1⟩, s8.2)

/-- Model of Masterminds `parseConstraint` applied to one matched
`(op, version)` piece: wildcard or missing minor/patch components make the
clause "dirty" and are replaced by zeros (the pre-release is kept, the
build metadata dropped, for dirty clauses). -/
def mkClause (op : Str) (t : VerTok) : Option Clause :=
  let trimDot : Str → Str := fun s => match s with | '.' :: r => r | r => r
  if isX t.m3 then
    (newVersion (str "0.0.0" ++ t.m6)).map fun con =>
      ⟨op, con, true, false, false⟩
  else if t.m4.isEmpty || isX (trimDot t.m4) then
    (newVersion (t.m3 ++ str ".0.0" ++ t.m6)).map fun con =>
      ⟨op, con, true, true, false⟩
  else if t.m5.isEmpty || isX (trimDot t.m5) then
    (newVersion (t.m3 ++ t.m4 ++ str ".0" ++ t.m6)).map fun con =>
      ⟨op, con, true, false, true⟩
  else
    (newVersion (t.m3 ++ t.m4 ++ t.m5 ++ t.m6 ++ t.m8)).map fun con =>
      ⟨op, con, false, false, false⟩

/-- The operator token at the front of the input, longest first.  This is
equivalent to the regex alternation of the Masterminds operator list: when a
two-character operator is present, the one-character prefix cannot lead to a
match, because no version token starts with an operator character. -/
def scanOp (s : Str) : Str × Str :=
  if (str ">=").isPrefixOf s then (str ">=", s.drop 2)
  else if (str "=>").isPrefixOf s then (str "=>", s.drop 2)
  else if (str "<=").isPrefixOf s then (str "<=", s.drop 2)
  else if (str "=<").isPrefixOf s then (str "=<", s.drop 2)
  else if (str "!=").isPrefixOf s then (str "!=", s.drop 2)
  else if (str "~>").isPrefixOf s then (str "~>", s.drop 2)
  else if (str ">").isPrefixOf s then (str ">", s.drop 1)
  else if (str "<").isPrefixOf s then (str "<", s.drop 1)
  else if (str "~").isPrefixOf s then (str "~", s.drop 1)
  else if (str "^").isPrefixOf s then (str "^", s.drop 1)
  else if (str "=").isPrefixOf s then (str "=", s.drop 1)
  else ([], s)

/-- Parse one `||`-segment as a nonempty sequence of operator–version
clauses separated by whitespace and/or a comma, as accepted by the
Masterminds segment regex. -/
def parseClauses : Nat → Str → Option (List Clause)
  | 0, _ => none
  | fuel + 1, s =>
    let s0 := s.dropWhile isSpaceC
    let opr := scanOp s0
    let s2 := opr.2.dropWhile isSpaceC
    match scanVerTok s2 with
    | none => none
    | some (t, rest) =>
      match mkClause opr.1 t with
      | none => none
      | some c =>
        let rest1 := rest.dropWhile isSpaceC
        match rest1 with
        | [] => some [c]
        | ',' :: rest2 =>
          if rest2.isEmpty then some [c]
          else (parseClauses fuel rest2).map (c :: ·)
        | _ => (parseClauses fuel rest1).map (c :: ·)

/-- Split on the two-character separator `||` (Go `strings.Split`). -/
def splitOrs : Str → List Str
  | [] => [[]]
  | '|' :: '|' :: rest => [] :: splitOrs rest
  | c :: rest =>
    match splitOrs rest with
    | [] => [[c]]
    | p :: ps => (c :: p) :: ps

/-- The text matched by one constraint-version token (the `cvRegex` group
of the Masterminds regexes, including the optional leading `v`) at the
front of `s`, with the rest of the input. -/
def scanCv (s : Str) : Option (Str × Str) :=
  match scanVerTok s with
  | none => none
  | some (_, rest) => some (s.take (s.length - rest.length), rest)

/-- One anchored attempt of `constraintRangeRegex`
(`\s*(cvRegex)\s+-\s+(cvRegex)\s*`) at the front of `s`: the whole matched
text, the two version captures (groups 1 and 11) and the rest of the input.
The quantifiers are greedy; no backtracking arises because `\s` is disjoint
from every character a version token may contain. -/
def matchRangeAt (s : Str) : Option (Str × Str × Str × Str) :=
  let r0 := s.dropWhile isSpaceC
  match scanCv r0 with
  | none => none
  | some (g1, r1) =>
    if (r1.takeWhile isSpaceC).isEmpty then none
    else
      match r1.dropWhile isSpaceC with
      | '-' :: r3 =>
        if (r3.takeWhile isSpaceC).isEmpty then none
        else
          match scanCv (r3.dropWhile isSpaceC) with
          | none => none
          | some (g11, r5) =>
            let r6 := r5.dropWhile isSpaceC
            some (s.take (s.length - r6.length), g1, g11, r6)
      | _ => none

/-- Model of `constraintRangeRegex.FindAllStringSubmatch`: successive
non-overlapping leftmost matches, each position tried left to right and
the scan resuming after the end of a match. -/
def findRanges : Nat → Str → List (Str × Str × Str)
  | 0, _ => []
  | fuel + 1, s =>
    match matchRangeAt s with
    | some (whole, g1, g11, rest) => (whole, g1, g11) :: findRanges fuel rest
    | none =>
      match s with
      | [] => []
      | _ :: s' => findRanges fuel s'

/-- Model of `strings.Replace(s, old, new, 1)`: replace the first
occurrence of `old` in `s` (none: `s` unchanged). -/
def replaceOnce : Nat → Str → Str → Str → Str
  | 0, s, _, _ => s
  | fuel + 1, s, old, new =>
    if old.isPrefixOf s then new ++ s.drop old.length
    else
      match s with
      | [] => []
      | c :: s' => c :: replaceOnce fuel s' old new

/-- Model of Masterminds `rewriteRange`: every matched hyphen range
`A - B` is replaced (first occurrence of its matched text, which includes
the surrounding whitespace the regex consumed) by `">= A, <= B"`. -/
def rewriteRange (i : Str) : Str :=
  (findRanges (i.length + 1) i).foldl
    (fun o v => replaceOnce (o.length + 1) o v.1
      (str ">= " ++ v.2.1 ++ str ", <= " ++ v.2.2)) i

/-- Model of `semver.NewConstraint`: rewrite hyphen ranges, split the
expression on `||` and parse every segment; any failing segment fails the
whole parse. -/
def newConstraint (s : Str) : Option Constraints :=
  (splitOrs (rewriteRange s)).mapM fun seg => parseClauses (seg.length + 1) seg

/-- Model of `constraintTildeOrEqual` (the `""` and `"="` operators):
straight equality, except that a dirty clause behaves like `~`. -/
def constraintTildeOrEqual (v : Version) (c : Clause) : Bool :=
  if !v.pre.isEmpty && c.con.pre.isEmpty then false
  else if c.dirty then constraintTildeAux v c
  else compareV v c.con == 0
where
  /-- Model of `constraintTilde`. -/
  constraintTildeAux (v : Version) (c : Clause) : Bool :=
    if !v.pre.isEmpty && c.con.pre.isEmpty then false
    else if compareV v c.con < 0 then false
    else if c.con.major == 0 && c.con.minor == 0 && c.con.patch == 0 &&
        !c.minorDirty && !c.patchDirty then true
    else if v.major != c.con.major then false
    else if v.minor != c.con.minor && !c.minorDirty then false
    else true

/-- Model of `constraintTilde` (`~` and `~>`). -/
def constraintTilde (v : Version) (c : Clause) : Bool :=
  constraintTildeOrEqual.constraintTildeAux v c

/-- Model of `constraintNotEqual` (`!=`). -/
def constraintNotEqual (v : Version) (c : Clause) : Bool :=
  if c.dirty then
    if !v.pre.isEmpty && c.con.pre.isEmpty then false
    else if c.con.major != v.major then true
    else if c.con.minor != v.minor && !c.minorDirty then true
    else if c.minorDirty then false
    else if c.con.patch != v.patch && !c.patchDirty then true
    else if c.patchDirty then false
    else compareV v c.con != 0
  else compareV v c.con != 0

/-- Model of `constraintGreaterThan` (`>`). -/
def constraintGreaterThan (v : Version) (c : Clause) : Bool :=
  if !v.pre.isEmpty && c.con.pre.isEmpty then false
  else if !c.dirty then compareV v c.con == 1
  else if c.con.major < v.major then true
  else if v.major < c.con.major then false
  else if c.minorDirty then false
  else if c.patchDirty then decide (c.con.minor < v.minor)
  else compareV v c.con == 1

/-- Model of `constraintGreaterThanEqual` (`>=` and `=>`). -/
def constraintGreaterThanEqual (v : Version) (c : Clause) : Bool :=
  if !v.pre.isEmpty && c.con.pre.isEmpty then false
  else decide (0 ≤ compareV v c.con)

/-- Model of `constraintLessThan` (`<`). -/
def constraintLessThan (v : Version) (c : Clause) : Bool :=
  if !v.pre.isEmpty && c.con.pre.isEmpty then false
  else decide (compareV v c.con < 0)

/-- Model of `constraintLessThanEqual` (`<=` and `=<`). -/
def constraintLessThanEqual (v : Version) (c : Clause) : Bool :=
  if !v.pre.isEmpty && c.con.pre.isEmpty then false
  else if !c.dirty then decide (compareV v c.con ≤ 0)
  else if c.con.major < v.major then false
  else if v.major == c.con.major && c.con.minor < v.minor && !c.minorDirty then false
  else true

/-- Model of `constraintCaret` (`^`). -/
def constraintCaret (v : Version) (c : Clause) : Bool :=
  if !v.pre.isEmpty && c.con.pre.isEmpty then false
  else if compareV v c.con < 0 then false
  else if 0 < c.con.major || c.minorDirty then v.major == c.con.major
  else if c.con.major == 0 && v.major != 0 then false
  else if 0 < c.con.minor || c.patchDirty then v.minor == c.con.minor
  else c.con.patch == v.patch

/-- Dispatch a clause to its operator's check, as the Masterminds
`constraintOps` table. -/
def checkClause (c : Clause) (v : Version) : Bool :=
  if c.op == str "" || c.op == str "=" then constraintTildeOrEqual v c
  else if c.op == str "!=" then constraintNotEqual v c
  else if c.op == str ">" then constraintGreaterThan v c
  else if c.op == str "<" then constraintLessThan v c
  else if c.op == str ">=" || c.op == str "=>" then constraintGreaterThanEqual v c
  else if c.op == str "<=" || c.op == str "=<" then constraintLessThanEqual v c
  else if c.op == str "~" || c.op == str "~>" then constraintTilde v c
  else if c.op == str "^" then constraintCaret v c
  else false

/-- Model of `Constraints.Check`: some `||`-alternative has every clause
satisfied. -/
def checkC (cs : Constraints) (v : Version) : Bool :=
  cs.any fun grp => grp.all fun c => checkClause c v

/-!  ## Embedding of `install/install.go`  -/

/-- Insert into a sorted list: `le a b` puts `a` before `b`. -/
def insertLe {α : Type} (le : α → α → Bool) (a : α) : List α → List α
  | [] => [a]
  | b :: bs => if le a b then a :: b :: bs else b :: insertLe le a bs

/-- Insertion sort by `le`. -/
def isortBy {α : Type} (le : α → α → Bool) : List α → List α
  | [] => []
  | a :: as => insertLe le a (isortBy le as)

/-- The descending order of `sort.Sort(sort.Reverse(semver.Collection _))`:
`a` may come before `b` exactly when `a` is not smaller. -/
def descLe (a b : Version) : Bool := decide (0 ≤ compareV a b)

/-- Model of `sortVersions`: parse each entry (silently skipping unparsable
ones), sort the parsed versions in descending precedence order, and
overwrite the leading entries of the slice with their canonical strings;
entries beyond the number of parsed versions keep their original values.
Go's `sort.Sort` is unstable, so any descending arrangement of the parsed
versions is a faithful model; an insertion sort is used. -/
def sortVersions (versions : List Str) : List Str :=
  let vs := versions.filterMap newVersion
  (isortBy descLe vs).map vString ++ versions.drop vs.length

/-- Model of `isValidVersion`: an optional leading `v` is stripped, the part
before the first `-` must have exactly three dot-separated components, and
the whole (`v`-stripped) string must parse as a version. -/
def isValidVersion (version : Str) : Bool :=
  let version := trimPrefixGoStr version (str "v")
  let parts := splitChar '.' ((splitChar '-' version).headD [])
  if parts.length != 3 then false
  else (newVersion version).isSome

/-- Model of `isValidVersionConstraint`. -/
def isValidVersionConstraint (version : Str) : Bool :=
  (newConstraint version).isSome

/-- The exact-match loop of `maxSatisfying` (its first step): the first
element verbatim equal to the `v`-stripped spec. -/
def exactMatchStep (versions : List Str) (spec : Str) : Option Str :=
  versions.find? fun v => v == trimPrefixGoStr spec (str "v")

/-- One iteration of the constraint loop of `maxSatisfying`: skip an
unparsable candidate, and keep the running maximum unless the candidate
satisfies the constraint and is strictly greater (`GreaterThan`). -/
def findMaxStep (c : Constraints) (maxV : Option Version) (raw : Str) :
    Option Version :=
  match newVersion raw with
  | none => maxV
  | some v =>
    if checkC c v then
      match maxV with
      | none => some v
      | some m => if 0 < compareV v m then some v else maxV
    else maxV

/-- The constraint loop of `maxSatisfying` (its last step): parse every
candidate (skipping unparsable ones) and keep the first maximum among those
satisfying the constraint. -/
def findMax (c : Constraints) (versions : List Str) : Option Version :=
  versions.foldl (findMaxStep c) none

/-- The parsed candidates that satisfy the constraint, in list order. -/
def satList (c : Constraints) (versions : List Str) : List Version :=
  (versions.filterMap newVersion).filter (fun v => checkC c v)

/-- Model of `maxSatisfying`. -/
def maxSatisfying (versions : List Str) (spec : Str) : Str :=
  match exactMatchStep versions spec with
  | some v => v
  | none =>
    match newConstraint spec with
    | none => []
    | some c =>
      match findMax c versions with
      | none => []
      | some m => vString m

/-- Model of `checkVersion`; `gopVersion` stands for the collaborator call
`gopVersionFunc()` (the installed binary's reported version, or an error,
which is propagated). -/
def checkVersion (versionSpec : Str) (gopVersion : Except Str Str) :
    Except Str Unit :=
  match gopVersion with
  | .error e => .error e
  | .ok actualVersion =>
    match newVersion versionSpec with
    | none => .error (str "invalid version spec: " ++ versionSpec)
    | some expected =>
      match newVersion actualVersion with
      | none => .error (str "invalid installed version: " ++ actualVersion)
      | some actual =>
        if compareV expected actual != 0 then
          .error (str "installed gop version " ++ vString actual ++
            str " does not match expected version " ++ vString expected)
        else .ok ()

/-- Model of `filepath.Base` for slash-separated paths. -/
def baseName (path : Str) : Str :=
  if path.isEmpty then str "."
  else
    let p := (path.reverse.dropWhile (· == '/')).reverse
    if p.isEmpty then str "/"
    else (p.reverse.takeWhile (· != '/')).reverse

/-- The capture group of the anchored Go regex `^gop (\d+(\.\d+)*)` matched
against the start of the content: the literal `gop ` followed by a greedy
run of digits and dot-digit groups. -/
def gopModVersionMatch (content : Str) : Option Str :=
  match content with
  | 'g' :: 'o' :: 'p' :: ' ' :: rest =>
    match scanIdentSeq isDigitC (rest.length + 1) rest with
    | some (q, _) => some q
    | none => none
  | _ => none

/-- Whitespace trimmed by Go `strings.TrimSpace` (`unicode.IsSpace`):
space, tab, newline, vertical tab, form feed, carriage return, next line
and no-break space. -/
def isGoSpace (c : Char) : Bool :=
  c == ' ' || c == '\t' || c == '\n' || c.toNat == 11 || c.toNat == 12 ||
    c == '\r' || c.toNat == 133 || c.toNat == 160

/-- Model of Go `strings.TrimSpace`. -/
def trimSpaceGo (s : Str) : Str :=
  ((s.dropWhile isGoSpace).reverse.dropWhile isGoSpace).reverse

/-- Model of `parseGopVersionFile`; `content` is the result of reading the
file (`none` models a read error, which the Go function propagates). -/
def parseGopVersionFile (versionFilePath : Str) (content : Option Str) :
    Except Str Str :=
  match content with
  | none => .error (str "read error")
  | some content =>
    let filename := baseName versionFilePath
    if filename == str "gop.mod" || filename == str "gop.work" then
      match gopModVersionMatch content with
      | some ver => .ok ver
      | none => .ok []
    else .ok (trimSpaceGo content)

/-- Model of `resolveVersionInput`: `version` and `versionFile` are the two
environment inputs, `fs` models the file system (`none`: the path does not
exist).  The boolean records whether the both-inputs warning was
emitted. -/
def resolveVersionInput (version versionFile : Str) (fs : Str → Option Str) :
    Bool × Except Str Str :=
  if version ≠ [] ∧ versionFile ≠ [] then (true, .ok version)
  else if version ≠ [] then (false, .ok version)
  else if versionFile ≠ [] then
    match fs versionFile with
    | none =>
      (false, .error (str "the specified gop version file at: " ++
        versionFile ++ str " does not exist"))
    | some content => (false, parseGopVersionFile versionFile (some content))
  else (false, .ok [])

/-- The observable outcome of `InstallGop`'s resolution phase:
a returned error, a Go runtime panic (also fatal), or a checkout reference
together with the `gop-version-verified` output value and the version
passed to post-install verification (`none`: verification skipped). -/
inductive InstallResult where
  | fatalErr (msg : Str)
  | panicked
  | ok (checkoutRef : Str) (verified : Str) (verify : Option Str)
deriving DecidableEq, Repr

/-- Model of the Go helper `contains`. -/
def containsStr (slice : List Str) (item : Str) : Bool :=
  slice.any fun s => s == item

/-- The checkout-reference and output derivation of `InstallGop`: a
selected version becomes the tag `"v" + version` and is verified; an empty
`version` means branch fallback — the spec itself is the reference,
unverified, and post-install verification is skipped. -/
def deriveCheckout (version versionSpec : Str) : InstallResult :=
  if version ≠ [] then .ok (str "v" ++ version) (str "true") (some version)
  else .ok versionSpec (str "false") none

/-- Model of the resolution phase of `InstallGop` (filter and sort the
fetched tags, select a version from the spec or fall back to a branch,
derive the checkout reference and outputs).  `tagVersions` and `branches`
stand for the collaborator results `fetchTags()` / `fetchBranches()`.
Selecting the latest of an empty valid-version list indexes past the end of
the slice, a Go runtime panic. -/
def installGopResolve (versionSpec : Str) (tagVersions : List Str)
    (branches : List Str) : InstallResult :=
  let validVersions := sortVersions (tagVersions.filter isValidVersion)
  if versionSpec = [] ∨ versionSpec = str "latest" then
    match validVersions with
    | [] => .panicked
    | v :: _ => deriveCheckout v versionSpec
  else
    let version := maxSatisfying validVersions versionSpec
    if version = [] then
      if containsStr branches versionSpec then deriveCheckout [] versionSpec
      else
        .fatalErr (str "no gop-version found that satisfies '" ++
          versionSpec ++ str "' in branches or tags")
    else deriveCheckout version versionSpec

/-!  ## Order theory of the semver comparison

`compareV` is shown to agree, on well-formed versions, with a lexicographic
comparison of keys, from which reflexivity, antisymmetry of sign and
transitivity follow.  Well-formedness (`DigitCanon`: an all-numeric
pre-release part carries no superfluous leading zero) is exactly what
`validatePrerelease` guarantees for every version `newVersion` accepts. -/

/-- An all-numeric part has no superfluous leading zero.  (On such parts the
Go code compares parsed values, and distinct canonical digit strings have
distinct values.) -/
def DigitCanon (p : Str) : Prop :=
  p.all isDigitC = true → canonicalDigits p

theorem digitCanon_nil : DigitCanon [] := by
  intro _
  right
  simp

theorem goCmpChars_self : ∀ a, goCmpChars a a = 0 := by
  intro a
  induction a with
  | nil => rfl
  | cons x xs ih => simp [goCmpChars, ih]

theorem goCmpChars_range : ∀ a b, goCmpChars a b = -1 ∨ goCmpChars a b = 0 ∨
    goCmpChars a b = 1 := by
  intro a
  induction a with
  | nil => intro b; cases b <;> simp [goCmpChars]
  | cons x xs ih =>
    intro b
    cases b with
    | nil => simp [goCmpChars]
    | cons y ys =>
      simp only [goCmpChars]
      split
      · simp
      · split
        · simp
        · exact ih ys

theorem goCmpChars_eq_zero : ∀ a b, goCmpChars a b = 0 → a = b := by
  intro a
  induction a with
  | nil => intro b h; cases b with
    | nil => rfl
    | cons y ys => simp [goCmpChars] at h
  | cons x xs ih =>
    intro b h
    cases b with
    | nil => simp [goCmpChars] at h
    | cons y ys =>
      simp only [goCmpChars] at h
      split at h
      · omega
      · split at h
        · omega
        · have hx : x = y := char_eq_of_toNat_eq (by omega)
          rw [hx, ih ys h]

theorem goCmpChars_flip : ∀ a b, goCmpChars a b = -(goCmpChars b a) := by
  intro a
  induction a with
  | nil => intro b; cases b <;> simp [goCmpChars]
  | cons x xs ih =>
    intro b
    cases b with
    | nil => simp [goCmpChars]
    | cons y ys =>
      simp only [goCmpChars]
      by_cases h1 : x.toNat < y.toNat
      · simp [h1, if_neg (by omega : ¬ y.toNat < x.toNat)]
      · by_cases h2 : y.toNat < x.toNat
        · simp [h1, h2]
        · simp [h1, h2, ih ys]

theorem goCmpChars_trans_np : ∀ a b c, goCmpChars a b ≤ 0 → goCmpChars b c ≤ 0 →
    goCmpChars a c ≤ 0 := by
  intro a
  induction a with
  | nil =>
    intro b c _ _
    cases c <;> simp [goCmpChars]
  | cons x xs ih =>
    intro b c h1 h2
    cases b with
    | nil => simp [goCmpChars] at h1
    | cons y ys =>
      cases c with
      | nil => simp [goCmpChars] at h2
      | cons z zs =>
        simp only [goCmpChars] at h1 h2 ⊢
        by_cases hxy : x.toNat < y.toNat
        · by_cases hyz : y.toNat < z.toNat
          · rw [if_pos (by omega : x.toNat < z.toNat)]
            norm_num
          · by_cases hzy : z.toNat < y.toNat
            · rw [if_neg hyz, if_pos hzy] at h2
              omega
            · rw [if_pos (by omega : x.toNat < z.toNat)]
              norm_num
        · by_cases hyx : y.toNat < x.toNat
          · rw [if_neg hxy, if_pos hyx] at h1
            omega
          · rw [if_neg hxy, if_neg hyx] at h1
            by_cases hyz : y.toNat < z.toNat
            · rw [if_pos (by omega : x.toNat < z.toNat)]
              norm_num
            · by_cases hzy : z.toNat < y.toNat
              · rw [if_neg hyz, if_pos hzy] at h2
                omega
              · rw [if_neg hyz, if_neg hzy] at h2
                rw [if_neg (by omega : ¬ x.toNat < z.toNat),
                  if_neg (by omega : ¬ z.toNat < x.toNat)]
                exact ih ys zs h1 h2

/-- Facts recorded by a successful `parseUint64`. -/
theorem parseUint64_some {p : Str} {n : Nat} (h : parseUint64 p = some n) :
    p ≠ [] ∧ p.all isDigitC = true ∧ readNat p = n ∧ n < 2 ^ 64 := by
  unfold parseUint64 at h
  split at h
  · next hc =>
    obtain ⟨h1, h2, h3⟩ := hc
    have hn : readNat p = n := Option.some_inj.mp h
    exact ⟨h1, h2, hn, hn ▸ h3⟩
  · exact absurd h (by simp)

theorem parseUint64_none_of_not_digits {p : Str} (h : ¬ p.all isDigitC = true) :
    parseUint64 p = none := by
  unfold parseUint64
  rw [if_neg]
  intro hc
  exact h hc.2.1

/-- Canonical digit strings with the same value are equal. -/
theorem parseUint64_inj {p q : Str} {n : Nat}
    (hp : parseUint64 p = some n) (hq : parseUint64 q = some n)
    (hcp : DigitCanon p) (hcq : DigitCanon q) : p = q := by
  obtain ⟨hp1, hp2, hp3, _⟩ := parseUint64_some hp
  obtain ⟨hq1, hq2, hq3, _⟩ := parseUint64_some hq
  have e1 : natToStr n = p := by
    rw [← hp3]
    exact readNat_natToStr_canonical hp1 (fun c hc => List.all_eq_true.mp hp2 c hc)
      (hcp hp2)
  have e2 : natToStr n = q := by
    rw [← hq3]
    exact readNat_natToStr_canonical hq1 (fun c hc => List.all_eq_true.mp hq2 c hc)
      (hcq hq2)
  rw [← e1, ← e2]

/-- The comparison key of one pre-release part: the empty padding part is
smallest, then numbers by value, then non-numeric parts in Go string
order. -/
inductive PartKey where
  | emp
  | num (n : Nat)
  | strp (s : Str)
deriving DecidableEq

/-- The key of a part. -/
def keyPart (p : Str) : PartKey :=
  match parseUint64 p with
  | some n => .num n
  | none => if p = [] then .emp else .strp p

/-- Comparison of part keys. -/
def pkCmp : PartKey → PartKey → Int
  | .emp, .emp => 0
  | .emp, _ => -1
  | _, .emp => 1
  | .num a, .num b => compareSegment a b
  | .num _, .strp _ => -1
  | .strp _, .num _ => 1
  | .strp a, .strp b => goCmpChars a b

theorem compareSegment_self (a : Nat) : compareSegment a a = 0 := by
  simp [compareSegment]

theorem compareSegment_flip (a b : Nat) :
    compareSegment a b = -(compareSegment b a) := by
  unfold compareSegment
  by_cases h1 : a < b
  · rw [if_pos h1, if_neg (by omega : ¬ b < a), if_pos h1]
  · by_cases h2 : b < a
    · rw [if_neg h1, if_pos h2, if_pos h2]
      norm_num
    · rw [if_neg h1, if_neg h2, if_neg h2, if_neg h1]
      norm_num

theorem compareSegment_trans_np {a b c : Nat} (h1 : compareSegment a b ≤ 0)
    (h2 : compareSegment b c ≤ 0) : compareSegment a c ≤ 0 := by
  unfold compareSegment at h1 h2 ⊢
  split at h1 <;> (try split at h1) <;>
    split at h2 <;> (try split at h2) <;>
    split <;> (try split) <;> omega

theorem compareSegment_range (a b : Nat) : compareSegment a b = -1 ∨
    compareSegment a b = 0 ∨ compareSegment a b = 1 := by
  unfold compareSegment
  split <;> (try split) <;> omega

theorem pkCmp_self : ∀ k, pkCmp k k = 0 := by
  intro k
  cases k with
  | emp => rfl
  | num n => exact compareSegment_self n
  | strp s => exact goCmpChars_self s

theorem pkCmp_flip : ∀ j k, pkCmp j k = -(pkCmp k j) := by
  intro j k
  cases j <;> cases k <;>
    simp only [pkCmp] <;>
    first
    | exact compareSegment_flip _ _
    | exact goCmpChars_flip _ _
    | decide

theorem pkCmp_eq_zero : ∀ j k, pkCmp j k = 0 → j = k := by
  intro j k h
  cases j with
  | emp =>
    cases k with
    | emp => rfl
    | num n => simp only [pkCmp] at h; omega
    | strp s => simp only [pkCmp] at h; omega
  | num a =>
    cases k with
    | emp => simp only [pkCmp] at h; omega
    | num b =>
      have hab : a = b := by
        simp only [pkCmp, compareSegment] at h
        split at h <;> (try split at h) <;> omega
      rw [hab]
    | strp s => simp only [pkCmp] at h; omega
  | strp a =>
    cases k with
    | emp => simp only [pkCmp] at h; omega
    | num n => simp only [pkCmp] at h; omega
    | strp b => rw [goCmpChars_eq_zero a b h]

theorem pkCmp_trans_np : ∀ j k l, pkCmp j k ≤ 0 → pkCmp k l ≤ 0 → pkCmp j l ≤ 0 := by
  intro j k l h1 h2
  cases j <;> cases k <;> cases l <;>
    simp only [pkCmp] at h1 h2 ⊢ <;>
    first
    | omega
    | exact compareSegment_trans_np h1 h2
    | exact goCmpChars_trans_np _ _ _ h1 h2

theorem pkCmp_range : ∀ j k, pkCmp j k = -1 ∨ pkCmp j k = 0 ∨ pkCmp j k = 1 := by
  intro j k
  cases j <;> cases k <;>
    simp only [pkCmp] <;>
    first
    | exact compareSegment_range _ _
    | exact goCmpChars_range _ _
    | simp

/-- `keyPart` never produces the padding key for a nonempty part. -/
theorem keyPart_ne_emp {p : Str} (h : p ≠ []) : keyPart p ≠ .emp := by
  unfold keyPart
  match hu : parseUint64 p with
  | some n => simp
  | none => simp [h]

/-- On parts with canonical digits, `comparePrePart` is the key
comparison. -/
theorem comparePrePart_eq_pkCmp {s o : Str}
    (hs : DigitCanon s) (ho : DigitCanon o) :
    comparePrePart s o = pkCmp (keyPart s) (keyPart o) := by
  unfold comparePrePart
  by_cases heq : s = o
  · rw [if_pos heq, heq, pkCmp_self]
  · rw [if_neg heq]
    by_cases hse : s = []
    · subst hse
      have hone : o ≠ [] := fun h => heq h.symm
      rw [if_pos rfl, if_pos hone]
      have : keyPart [] = .emp := by unfold keyPart; simp [parseUint64, readNat]
      rw [this]
      rcases hk : keyPart o with _ | n | t
      · exact absurd hk (keyPart_ne_emp hone)
      · rfl
      · rfl
    · rw [if_neg hse]
      by_cases hoe : o = []
      · subst hoe
        rw [if_pos rfl, if_pos hse]
        have : keyPart [] = .emp := by unfold keyPart; simp [parseUint64, readNat]
        rw [this]
        rcases hk : keyPart s with _ | n | t
        · exact absurd hk (keyPart_ne_emp hse)
        · rfl
        · rfl
      · rw [if_neg hoe]
        unfold keyPart
        rcases ho' : parseUint64 o with _ | oi <;>
          rcases hs' : parseUint64 s with _ | si
        · simp only [if_neg hse, if_neg hoe, pkCmp]
          rcases goCmpChars_range s o with h | h | h
          · rw [h]
            norm_num
          · exact absurd (goCmpChars_eq_zero _ _ h) heq
          · rw [h]
            norm_num
        · simp only [if_neg hoe, pkCmp]
        · simp only [if_neg hse, pkCmp]
        · simp only [pkCmp, compareSegment]
          have hne : si ≠ oi := by
            intro hc
            subst hc
            exact heq (parseUint64_inj hs' ho' hs ho)
          by_cases hlt : oi < si
          · rw [if_pos hlt, if_neg (by omega : ¬ si < oi), if_pos hlt]
          · rw [if_neg hlt, if_pos (by omega : si < oi)]

theorem keyPart_nil : keyPart [] = .emp := by
  unfold keyPart
  simp [parseUint64]

/-- Key-list comparison once the first list is exhausted. -/
def klCmpNilL : List PartKey → Int
  | [] => 0
  | k :: ks =>
    let d := pkCmp .emp k
    if d ≠ 0 then d else klCmpNilL ks

/-- Key-list comparison once the second list is exhausted. -/
def klCmpNilR : List PartKey → Int
  | [] => 0
  | k :: ks =>
    let d := pkCmp k .emp
    if d ≠ 0 then d else klCmpNilR ks

/-- Lexicographic comparison of part-key lists, the shorter list padded
with `emp`. -/
def klCmp : List PartKey → List PartKey → Int
  | [], ks => klCmpNilL ks
  | j :: js, [] =>
    let d := pkCmp j .emp
    if d ≠ 0 then d else klCmpNilR js
  | j :: js, k :: ks =>
    let d := pkCmp j k
    if d ≠ 0 then d else klCmp js ks

theorem klCmp_nilR : ∀ js, klCmp js [] = klCmpNilR js := by
  intro js
  cases js <;> rfl

/-- The head of a key list, `emp` when it is exhausted. -/
def headE : List PartKey → PartKey
  | [] => .emp
  | k :: _ => k

/-- The tail of a key list, empty when it is exhausted. -/
def tailE : List PartKey → List PartKey
  | [] => []
  | _ :: ks => ks

theorem klCmp_step : ∀ a b : List PartKey, klCmp a b =
    if pkCmp (headE a) (headE b) ≠ 0 then pkCmp (headE a) (headE b)
    else klCmp (tailE a) (tailE b) := by
  intro a b
  match a, b with
  | [], [] =>
    simp [klCmp, klCmpNilL, headE, tailE, pkCmp]
  | [], k :: ks =>
    simp only [klCmp, klCmpNilL, headE, tailE]
  | j :: js, [] =>
    simp only [klCmp, headE, tailE]
    rw [klCmp_nilR]
  | j :: js, k :: ks =>
    simp only [klCmp, headE, tailE]

theorem klCmpNilR_flip : ∀ ks, klCmpNilR ks = -(klCmpNilL ks) := by
  intro ks
  induction ks with
  | nil => rfl
  | cons k ks ih =>
    simp only [klCmpNilR, klCmpNilL]
    rw [pkCmp_flip k .emp]
    by_cases h : pkCmp .emp k = 0
    · rw [h]
      simp [ih]
    · rw [if_pos (by omega : -(pkCmp .emp k) ≠ 0), if_pos h]

theorem klCmp_flip : ∀ a b, klCmp a b = -(klCmp b a) := by
  intro a
  induction a with
  | nil =>
    intro b
    rw [klCmp_nilR, klCmpNilR_flip]
    simp [klCmp]
  | cons j js ih =>
    intro b
    cases b with
    | nil =>
      simp only [klCmp, klCmpNilL]
      rw [pkCmp_flip j .emp, klCmpNilR_flip]
      by_cases h : pkCmp .emp j = 0
      · rw [h]
        simp
      · rw [if_pos (by omega : -(pkCmp .emp j) ≠ 0), if_pos h]
    | cons k ks =>
      simp only [klCmp]
      rw [pkCmp_flip j k, ih ks]
      by_cases h : pkCmp k j = 0
      · rw [h]
        simp
      · rw [if_pos (by omega : -(pkCmp k j) ≠ 0), if_pos h]

theorem tailE_length (x : List PartKey) : (tailE x).length = x.length - 1 := by
  cases x <;> simp [tailE]

theorem klCmp_trans_np_aux : ∀ m a b c, a.length + b.length + c.length ≤ m →
    klCmp a b ≤ 0 → klCmp b c ≤ 0 → klCmp a c ≤ 0 := by
  intro m
  induction m with
  | zero =>
    intro a b c hm h1 h2
    have ha : a = [] := List.eq_nil_of_length_eq_zero (by omega)
    have hc : c = [] := List.eq_nil_of_length_eq_zero (by omega)
    subst ha
    subst hc
    simp [klCmp, klCmpNilL]
  | succ m ih =>
    intro a b c hm h1 h2
    by_cases hall : a = [] ∧ b = [] ∧ c = []
    · obtain ⟨ha, hb, hc⟩ := hall
      subst ha
      subst hb
      subst hc
      simp [klCmp, klCmpNilL]
    · have hlen : (tailE a).length + (tailE b).length + (tailE c).length ≤ m := by
        have la := tailE_length a
        have lb := tailE_length b
        have lc := tailE_length c
        have hpos : 0 < a.length ∨ 0 < b.length ∨ 0 < c.length := by
          by_contra hcon
          push_neg at hcon
          exact hall ⟨List.eq_nil_of_length_eq_zero (by omega),
            List.eq_nil_of_length_eq_zero (by omega),
            List.eq_nil_of_length_eq_zero (by omega)⟩
        omega
      rw [klCmp_step a b] at h1
      rw [klCmp_step b c] at h2
      rw [klCmp_step a c]
      by_cases d1 : pkCmp (headE a) (headE b) = 0
      · rw [if_neg (not_not_intro d1)] at h1
        have he : headE a = headE b := pkCmp_eq_zero _ _ d1
        by_cases d2 : pkCmp (headE b) (headE c) = 0
        · rw [if_neg (not_not_intro d2)] at h2
          have he2 : headE b = headE c := pkCmp_eq_zero _ _ d2
          rw [he, he2, pkCmp_self, if_neg (by simp)]
          exact ih (tailE a) (tailE b) (tailE c) hlen h1 h2
        · rw [if_pos d2] at h2
          rw [he, if_pos d2]
          exact h2
      · rw [if_pos d1] at h1
        by_cases d2 : pkCmp (headE b) (headE c) = 0
        · have he2 : headE b = headE c := pkCmp_eq_zero _ _ d2
          rw [← he2, if_pos d1]
          exact h1
        · rw [if_pos d2] at h2
          have hd3 : pkCmp (headE a) (headE c) ≤ 0 := pkCmp_trans_np _ _ _ h1 h2
          by_cases d3 : pkCmp (headE a) (headE c) = 0
          · exfalso
            have hca : headE a = headE c := pkCmp_eq_zero _ _ d3
            rw [hca] at h1
            have hflip := pkCmp_flip (headE c) (headE b)
            omega
          · rw [if_pos d3]
            exact hd3

theorem klCmp_trans_np {a b c : List PartKey} (h1 : klCmp a b ≤ 0)
    (h2 : klCmp b c ≤ 0) : klCmp a c ≤ 0 :=
  klCmp_trans_np_aux (a.length + b.length + c.length) a b c (by omega) h1 h2

theorem comparePrePartsNilL_eq (os : List Str) (ho : ∀ p ∈ os, DigitCanon p) :
    comparePrePartsNilL os = klCmpNilL (os.map keyPart) := by
  induction os with
  | nil => rfl
  | cons o os ih =>
    simp only [comparePrePartsNilL, klCmpNilL, List.map_cons]
    rw [comparePrePart_eq_pkCmp digitCanon_nil (ho o (by simp)), keyPart_nil,
      ih (fun p hp => ho p (by simp [hp]))]

theorem comparePrePartsNilR_eq (ss : List Str) (hs : ∀ p ∈ ss, DigitCanon p) :
    comparePrePartsNilR ss = klCmpNilR (ss.map keyPart) := by
  induction ss with
  | nil => rfl
  | cons s ss ih =>
    simp only [comparePrePartsNilR, klCmpNilR, List.map_cons]
    rw [comparePrePart_eq_pkCmp (hs s (by simp)) digitCanon_nil, keyPart_nil,
      ih (fun p hp => hs p (by simp [hp]))]

/-- On canonical parts, the padded part-by-part comparison is the key-list
comparison. -/
theorem comparePreParts_eq_klCmp : ∀ ss os, (∀ p ∈ ss, DigitCanon p) →
    (∀ p ∈ os, DigitCanon p) →
    comparePreParts ss os = klCmp (ss.map keyPart) (os.map keyPart) := by
  intro ss
  induction ss with
  | nil =>
    intro os hs ho
    simp only [comparePreParts, List.map_nil, klCmp]
    exact comparePrePartsNilL_eq os ho
  | cons s ss ih =>
    intro os hs ho
    cases os with
    | nil =>
      simp only [comparePreParts, List.map_cons, List.map_nil, klCmp]
      rw [comparePrePart_eq_pkCmp (hs s (by simp)) digitCanon_nil, keyPart_nil,
        comparePrePartsNilR_eq ss (fun p hp => hs p (by simp [hp]))]
    | cons o os =>
      simp only [comparePreParts, List.map_cons, klCmp]
      rw [comparePrePart_eq_pkCmp (hs s (by simp)) (ho o (by simp)),
        ih os (fun p hp => hs p (by simp [hp])) (fun p hp => ho p (by simp [hp]))]

/-- The comparison key of a whole version. -/
structure PKey where
  k1 : Nat
  k2 : Nat
  k3 : Nat
  kp : Option (List PartKey)

/-- The key of a version: its numeric components and, when a pre-release is
present, the keys of its parts (`none`, which sorts greatest, otherwise). -/
def vkey (v : Version) : PKey :=
  ⟨v.major, v.minor, v.patch,
    if v.pre = [] then none else some ((splitChar '.' v.pre).map keyPart)⟩

/-- Comparison of optional pre-release key lists: absence sorts greatest. -/
def optCmp : Option (List PartKey) → Option (List PartKey) → Int
  | none, none => 0
  | none, some _ => 1
  | some _, none => -1
  | some a, some b => klCmp a b

/-- Lexicographic comparison of version keys. -/
def vCmpK (a b : PKey) : Int :=
  let d1 := compareSegment a.k1 b.k1
  if d1 ≠ 0 then d1 else
  let d2 := compareSegment a.k2 b.k2
  if d2 ≠ 0 then d2 else
  let d3 := compareSegment a.k3 b.k3
  if d3 ≠ 0 then d3 else optCmp a.kp b.kp

/-- Canonicity of a version's pre-release digits, as `newVersion`
guarantees. -/
def VCanon (v : Version) : Prop :=
  ∀ p ∈ splitChar '.' v.pre, DigitCanon p

theorem compareSegment_eq_zero {a b : Nat} (h : compareSegment a b = 0) :
    a = b := by
  unfold compareSegment at h
  split at h <;> (try split at h) <;> omega

/-- On canonical versions, `compareV` is the key comparison. -/
theorem compareV_eq_vCmpK {v o : Version} (hv : VCanon v) (ho : VCanon o) :
    compareV v o = vCmpK (vkey v) (vkey o) := by
  unfold compareV vCmpK vkey
  dsimp only
  by_cases e1 : compareSegment v.major o.major ≠ 0
  · rw [if_pos e1, if_pos e1]
  · rw [if_neg e1, if_neg e1]
    by_cases e2 : compareSegment v.minor o.minor ≠ 0
    · rw [if_pos e2, if_pos e2]
    · rw [if_neg e2, if_neg e2]
      by_cases e3 : compareSegment v.patch o.patch ≠ 0
      · rw [if_pos e3, if_pos e3]
      · rw [if_neg e3, if_neg e3]
        by_cases h1 : v.pre = [] <;> by_cases h2 : o.pre = []
        · simp [h1, h2, optCmp]
        · simp [h1, h2, optCmp]
        · simp [h1, h2, optCmp]
        · rw [if_neg (by simp [h1, h2] : ¬(v.pre = [] ∧ o.pre = [])),
            if_neg h1, if_neg h2, if_neg h1, if_neg h2]
          simp only [optCmp]
          exact comparePreParts_eq_klCmp _ _ hv ho

theorem optCmp_flip : ∀ a b, optCmp a b = -(optCmp b a) := by
  intro a b
  cases a <;> cases b <;> simp only [optCmp] <;>
    first
    | decide
    | exact klCmp_flip _ _

theorem optCmp_trans_np : ∀ a b c, optCmp a b ≤ 0 → optCmp b c ≤ 0 →
    optCmp a c ≤ 0 := by
  intro a b c h1 h2
  cases a <;> cases b <;> cases c <;> simp only [optCmp] at h1 h2 ⊢ <;>
    first
    | omega
    | exact klCmp_trans_np h1 h2

theorem compareSegment_ne_flip {a b : Nat} (h : compareSegment a b ≠ 0) :
    compareSegment b a ≠ 0 := by
  rw [compareSegment_flip b a]
  omega

theorem vCmpK_flip (a b : PKey) : vCmpK a b = -(vCmpK b a) := by
  unfold vCmpK
  by_cases e1 : compareSegment a.k1 b.k1 ≠ 0
  · rw [if_pos e1, if_pos (compareSegment_ne_flip e1), compareSegment_flip a.k1 b.k1]
  · rw [if_neg e1,
      if_neg (fun hc => e1 (compareSegment_ne_flip hc))]
    by_cases e2 : compareSegment a.k2 b.k2 ≠ 0
    · rw [if_pos e2, if_pos (compareSegment_ne_flip e2), compareSegment_flip a.k2 b.k2]
    · rw [if_neg e2, if_neg (fun hc => e2 (compareSegment_ne_flip hc))]
      by_cases e3 : compareSegment a.k3 b.k3 ≠ 0
      · rw [if_pos e3, if_pos (compareSegment_ne_flip e3), compareSegment_flip a.k3 b.k3]
      · rw [if_neg e3, if_neg (fun hc => e3 (compareSegment_ne_flip hc))]
        exact optCmp_flip _ _

theorem lex_np_iff (d r : Int) (hd : d = -1 ∨ d = 0 ∨ d = 1) :
    (if d ≠ 0 then d else r) ≤ 0 ↔ (d = -1 ∨ (d = 0 ∧ r ≤ 0)) := by
  rcases hd with h | h | h <;> subst h <;> simp

theorem compareSegment_eq_neg_one_iff {a b : Nat} :
    compareSegment a b = -1 ↔ a < b := by
  unfold compareSegment
  split <;> (try split) <;> (try omega) <;> simp <;> omega

theorem compareSegment_eq_zero_iff {a b : Nat} :
    compareSegment a b = 0 ↔ a = b := by
  unfold compareSegment
  split <;> (try split) <;> (try omega) <;> simp <;> omega

/-- The sign of `vCmpK` characterized by the components. -/
theorem vCmpK_np_iff (a b : PKey) : vCmpK a b ≤ 0 ↔
    (a.k1 < b.k1 ∨ (a.k1 = b.k1 ∧ (a.k2 < b.k2 ∨ (a.k2 = b.k2 ∧
      (a.k3 < b.k3 ∨ (a.k3 = b.k3 ∧ optCmp a.kp b.kp ≤ 0)))))) := by
  simp only [vCmpK]
  rw [lex_np_iff _ _ (compareSegment_range _ _),
    lex_np_iff _ _ (compareSegment_range _ _),
    lex_np_iff _ _ (compareSegment_range _ _),
    compareSegment_eq_neg_one_iff, compareSegment_eq_zero_iff,
    compareSegment_eq_neg_one_iff, compareSegment_eq_zero_iff,
    compareSegment_eq_neg_one_iff, compareSegment_eq_zero_iff]

theorem vCmpK_trans_np {a b c : PKey} (h1 : vCmpK a b ≤ 0) (h2 : vCmpK b c ≤ 0) :
    vCmpK a c ≤ 0 := by
  rw [vCmpK_np_iff] at h1 h2 ⊢
  rcases h1 with h1 | ⟨e1, h1⟩
  · rcases h2 with h2 | ⟨e2, h2⟩
    · exact Or.inl (by omega)
    · exact Or.inl (by omega)
  · rcases h2 with h2 | ⟨e2, h2⟩
    · exact Or.inl (by omega)
    · refine Or.inr ⟨by omega, ?_⟩
      rcases h1 with h1 | ⟨f1, h1⟩
      · rcases h2 with h2 | ⟨f2, h2⟩
        · exact Or.inl (by omega)
        · exact Or.inl (by omega)
      · rcases h2 with h2 | ⟨f2, h2⟩
        · exact Or.inl (by omega)
        · refine Or.inr ⟨by omega, ?_⟩
          rcases h1 with h1 | ⟨g1, h1⟩
          · rcases h2 with h2 | ⟨g2, h2⟩
            · exact Or.inl (by omega)
            · exact Or.inl (by omega)
          · rcases h2 with h2 | ⟨g2, h2⟩
            · exact Or.inl (by omega)
            · exact Or.inr ⟨by omega, optCmp_trans_np _ _ _ h1 h2⟩

theorem comparePrePart_self (s : Str) : comparePrePart s s = 0 := by
  unfold comparePrePart
  rw [if_pos rfl]

theorem comparePreParts_self : ∀ l, comparePreParts l l = 0 := by
  intro l
  induction l with
  | nil => rfl
  | cons s ss ih =>
    simp only [comparePreParts, comparePrePart_self]
    simpa using ih

/-- `Compare` is reflexive. -/
theorem compareV_self (v : Version) : compareV v v = 0 := by
  unfold compareV
  simp only [compareSegment_self]
  by_cases h : v.pre = []
  · simp [h]
  · simp only [if_neg (by simp [h] : ¬(v.pre = [] ∧ v.pre = [])), if_neg h]
    simp [comparePrerelease, comparePreParts_self]

/-- `Compare` is antisymmetric in sign on canonical versions. -/
theorem compareV_flip {v o : Version} (hv : VCanon v) (ho : VCanon o) :
    compareV v o = -(compareV o v) := by
  rw [compareV_eq_vCmpK hv ho, compareV_eq_vCmpK ho hv]
  exact vCmpK_flip _ _

/-- `Compare` is transitive (non-positive chains) on canonical versions. -/
theorem compareV_trans_np {a b c : Version} (ha : VCanon a) (hb : VCanon b)
    (hc : VCanon c) (h1 : compareV a b ≤ 0) (h2 : compareV b c ≤ 0) :
    compareV a c ≤ 0 := by
  rw [compareV_eq_vCmpK ha hb] at h1
  rw [compareV_eq_vCmpK hb hc] at h2
  rw [compareV_eq_vCmpK ha hc]
  exact vCmpK_trans_np h1 h2

/-!  ## Well-formedness of parsed versions and the print–parse round trip -/

/-- What `newVersion` guarantees about any version it produces. -/
structure VOk (v : Version) : Prop where
  major_lt : v.major < 2 ^ 64
  minor_lt : v.minor < 2 ^ 64
  patch_lt : v.patch < 2 ^ 64
  pre_ok : v.pre = [] ∨ validPreParts v.pre = true
  meta_ok : v.meta = [] ∨ validMetaParts v.meta = true

theorem validPreParts_canon {p : Str} (h : validPreParts p = true) :
    ∀ q ∈ splitChar '.' p, DigitCanon q := by
  intro q hq hdig
  have hall := List.all_eq_true.mp h q hq
  rw [hdig] at hall
  simp only [Bool.not_true, Bool.false_or, Bool.and_eq_true, Bool.or_eq_true] at hall
  rcases hall.2 with h1 | h1
  · left
    simpa using h1
  · right
    intro hc
    rw [hc] at h1
    simp at h1

theorem vcanon_of_pre_ok {v : Version}
    (h : v.pre = [] ∨ validPreParts v.pre = true) : VCanon v := by
  rcases h with h | h
  · intro q hq
    rw [h] at hq
    simp only [splitChar, List.mem_singleton] at hq
    rw [hq]
    exact digitCanon_nil
  · exact validPreParts_canon h

theorem VOk.canon {v : Version} (h : VOk v) : VCanon v :=
  vcanon_of_pre_ok h.pre_ok

theorem parseComps_bounds {nums : Str} {t : Nat × Nat × Nat}
    (h : parseComps nums = some t) :
    t.1 < 2 ^ 64 ∧ t.2.1 < 2 ^ 64 ∧ t.2.2 < 2 ^ 64 := by
  have hpow : 0 < 2 ^ 64 := pow_pos (by omega) _
  unfold parseComps at h
  split at h
  · split at h
    · next ma hma =>
      obtain ⟨_, _, _, hb⟩ := parseUint64_some hma
      have := Option.some_inj.mp h
      subst this
      exact ⟨hb, hpow, hpow⟩
    · simp at h
  · split at h
    · next ma mb hma hmb =>
      obtain ⟨_, _, _, hba⟩ := parseUint64_some hma
      obtain ⟨_, _, _, hbb⟩ := parseUint64_some hmb
      have := Option.some_inj.mp h
      subst this
      exact ⟨hba, hbb, hpow⟩
    · simp at h
  · split at h
    · next ma mb mc hma hmb hmc =>
      obtain ⟨_, _, _, hba⟩ := parseUint64_some hma
      obtain ⟨_, _, _, hbb⟩ := parseUint64_some hmb
      obtain ⟨_, _, _, hbc⟩ := parseUint64_some hmc
      have := Option.some_inj.mp h
      subst this
      exact ⟨hba, hbb, hbc⟩
    · simp at h
  · simp at h

theorem mkVersion_eq_some {comps : Option (Nat × Nat × Nat)}
    {preOpt metaOpt : Option Str} {v : Version}
    (h : mkVersion comps preOpt metaOpt = some v) :
    comps = some (v.major, v.minor, v.patch) ∧ v.pre = preOpt.getD [] ∧
    v.meta = metaOpt.getD [] ∧
    (preOpt = none ∨ validPreParts (preOpt.getD []) = true) ∧
    (metaOpt = none ∨ validMetaParts (metaOpt.getD []) = true) := by
  unfold mkVersion at h
  split at h
  · simp at h
  · next ma mb mc =>
    split at h
    · simp at h
    · next hc1 =>
      split at h
      · simp at h
      · next hc2 =>
        have hv := Option.some_inj.mp h
        subst hv
        simp only [Bool.and_eq_true, Bool.not_eq_true', not_and] at hc1 hc2
        refine ⟨rfl, rfl, rfl, ?_, ?_⟩
        · cases preOpt with
          | none => exact Or.inl rfl
          | some p =>
            right
            have := hc1 rfl
            simpa using this
        · cases metaOpt with
          | none => exact Or.inl rfl
          | some p =>
            right
            have := hc2 rfl
            simpa using this

/-- Every version `newVersion` produces is well-formed. -/
theorem newVersion_VOk {s : Str} {v : Version} (h : newVersion s = some v) :
    VOk v := by
  simp only [newVersion] at h
  obtain ⟨hc, hpre, hmeta, hpv, hmv⟩ := mkVersion_eq_some h
  obtain ⟨b1, b2, b3⟩ := parseComps_bounds hc
  refine ⟨b1, b2, b3, ?_, ?_⟩
  · rcases hpv with h' | h'
    · left
      rw [hpre, h']
      rfl
    · right
      rw [hpre]
      exact h'
  · rcases hmv with h' | h'
    · left
      rw [hmeta, h']
      rfl
    · right
      rw [hmeta]
      exact h'

/-- Every version `newVersion` produces has canonical pre-release
digits. -/
theorem newVersion_VCanon {s : Str} {v : Version} (h : newVersion s = some v) :
    VCanon v :=
  (newVersion_VOk h).canon

theorem isDigitC_ne_special {c : Char} (h : isDigitC c = true) :
    c ≠ '+' ∧ c ≠ '-' ∧ c ≠ '.' ∧ c ≠ 'v' := by
  refine ⟨?_, ?_, ?_, ?_⟩ <;> intro hc <;> subst hc <;> exact absurd h (by decide)

theorem isIdentC_ne_special {c : Char} (h : isIdentC c = true) :
    c ≠ '+' ∧ c ≠ '.' := by
  refine ⟨?_, ?_⟩ <;> intro hc <;> subst hc <;> exact absurd h (by decide)

theorem splitFirst_of_not_mem {sep : Char} {s : Str} (h : sep ∉ s) :
    splitFirst sep s = (s, none) := by
  induction s with
  | nil => rfl
  | cons c cs ih =>
    have hc : ¬ c = sep := fun hc => h (by simp [hc])
    simp only [splitFirst, if_neg hc]
    rw [ih (fun hm => h (by simp [hm]))]

theorem splitFirst_append {sep : Char} {xs ys : Str} (h : sep ∉ xs) :
    splitFirst sep (xs ++ sep :: ys) = (xs, some ys) := by
  induction xs with
  | nil => simp [splitFirst]
  | cons c cs ih =>
    have hc : ¬ c = sep := fun hc => h (by simp [hc])
    simp only [List.cons_append, splitFirst, if_neg hc, List.append_eq]
    rw [ih (fun hm => h (by simp [hm]))]

theorem splitChar_ne_nil (sep : Char) : ∀ s, splitChar sep s ≠ [] := by
  intro s
  cases s with
  | nil => simp [splitChar]
  | cons c cs =>
    simp only [splitChar]
    split
    · simp
    · split <;> simp

theorem splitChar_of_not_mem {sep : Char} {s : Str} (h : sep ∉ s) :
    splitChar sep s = [s] := by
  induction s with
  | nil => rfl
  | cons c cs ih =>
    have hc : ¬ c = sep := fun hc => h (by simp [hc])
    simp only [splitChar, if_neg hc]
    rw [ih (fun hm => h (by simp [hm]))]

theorem splitChar_append {sep : Char} {xs ys : Str} (h : sep ∉ xs) :
    splitChar sep (xs ++ sep :: ys) = xs :: splitChar sep ys := by
  induction xs with
  | nil => simp [splitChar]
  | cons c cs ih =>
    have hc : ¬ c = sep := fun hc => h (by simp [hc])
    simp only [List.cons_append, splitChar, if_neg hc, List.append_eq]
    rw [ih (fun hm => h (by simp [hm]))]

/-- Every character of a string is the separator or lies in one of the
parts. -/
theorem mem_splitChar {sep : Char} {s : Str} {c : Char} (h : c ∈ s) :
    c = sep ∨ ∃ p ∈ splitChar sep s, c ∈ p := by
  induction s with
  | nil => simp at h
  | cons d ds ih =>
    by_cases hd : d = sep
    · subst hd
      rcases List.mem_cons.mp h with hc | hc
      · exact Or.inl hc
      · rcases ih hc with hc' | ⟨p, hp, hcp⟩
        · exact Or.inl hc'
        · right
          refine ⟨p, ?_, hcp⟩
          have hstep : splitChar d (d :: ds) = [] :: splitChar d ds := by
            simp [splitChar]
          rw [hstep]
          exact List.mem_cons.mpr (Or.inr hp)
    · rcases List.mem_cons.mp h with hc | hc
      · subst hc
        right
        rcases hsp : splitChar sep ds with _ | ⟨p, ps⟩
        · exact absurd hsp (splitChar_ne_nil _ _)
        · refine ⟨c :: p, ?_, by simp⟩
          simp [splitChar, if_neg hd, hsp]
      · rcases ih hc with hc' | ⟨p, hp, hcp⟩
        · exact Or.inl hc'
        · right
          rcases hsp : splitChar sep ds with _ | ⟨q, qs⟩
          · exact absurd hsp (splitChar_ne_nil _ _)
          · rw [hsp] at hp
            rcases List.mem_cons.mp hp with hpq | hpq
            · subst hpq
              exact ⟨d :: p, by simp [splitChar, if_neg hd, hsp], by simp [hcp]⟩
            · exact ⟨p, by simp [splitChar, if_neg hd, hsp, hpq], hcp⟩

theorem parseUint64_natToStr {x : Nat} (h : x < 2 ^ 64) :
    parseUint64 (natToStr x) = some x := by
  have hcond : natToStr x ≠ [] ∧ (natToStr x).all isDigitC = true ∧
      readNat (natToStr x) < 2 ^ 64 :=
    ⟨natToStr_ne_nil x, List.all_eq_true.mpr (natToStr_digits x), by
      rw [natToStr_readNat]; exact h⟩
  unfold parseUint64
  rw [if_pos hcond, natToStr_readNat]

theorem dot_not_mem_natToStr (n : Nat) : '.' ∉ natToStr n := by
  intro hm
  have := natToStr_digits n _ hm
  exact absurd this (by decide)

theorem parseComps_body {a b c : Nat} (ha : a < 2 ^ 64) (hb : b < 2 ^ 64)
    (hc : c < 2 ^ 64) :
    parseComps (natToStr a ++ '.' :: (natToStr b ++ '.' :: natToStr c)) =
      some (a, b, c) := by
  have hsplit : splitChar '.' (natToStr a ++ '.' :: (natToStr b ++ '.' :: natToStr c)) =
      [natToStr a, natToStr b, natToStr c] := by
    rw [splitChar_append (dot_not_mem_natToStr a),
      splitChar_append (dot_not_mem_natToStr b),
      splitChar_of_not_mem (dot_not_mem_natToStr c)]
  unfold parseComps
  rw [hsplit]
  dsimp only
  rw [parseUint64_natToStr ha, parseUint64_natToStr hb, parseUint64_natToStr hc]

theorem validPreParts_chars {p : Str} (h : validPreParts p = true) :
    ∀ x ∈ p, isIdentC x = true ∨ x = '.' := by
  intro x hx
  rcases mem_splitChar hx with hc | ⟨q, hq, hxq⟩
  · exact Or.inr hc
  · have hall := List.all_eq_true.mp h q hq
    simp only [Bool.and_eq_true] at hall
    exact Or.inl (List.all_eq_true.mp hall.1.2 x hxq)

theorem validMetaParts_chars {p : Str} (h : validMetaParts p = true) :
    ∀ x ∈ p, isIdentC x = true ∨ x = '.' := by
  intro x hx
  rcases mem_splitChar hx with hc | ⟨q, hq, hxq⟩
  · exact Or.inr hc
  · have hall := List.all_eq_true.mp h q hq
    simp only [Bool.and_eq_true] at hall
    exact Or.inl (List.all_eq_true.mp hall.2 x hxq)

/-- Printing a well-formed version and parsing the result yields the same
version (`String()` then `NewVersion`). -/
theorem newVersion_vString {v : Version} (h : VOk v) :
    newVersion (vString v) = some v := by
  obtain ⟨ma, mb, mc, pre, meta⟩ := v
  obtain ⟨b1, b2, b3, hpre, hmeta⟩ := h
  simp only at b1 b2 b3 hpre hmeta
  obtain ⟨d, ds, hA⟩ := List.exists_cons_of_ne_nil (natToStr_ne_nil ma)
  have hd : isDigitC d = true := natToStr_digits ma d (by rw [hA]; simp)
  have hdv : d ≠ 'v' := (isDigitC_ne_special hd).2.2.2
  have hbody : ∀ x ∈ natToStr ma ++ '.' :: (natToStr mb ++ '.' :: natToStr mc),
      isDigitC x = true ∨ x = '.' := by
    intro x hx
    simp only [List.mem_append, List.mem_cons] at hx
    rcases hx with hx | hx | hx | hx | hx
    · exact Or.inl (natToStr_digits ma x hx)
    · exact Or.inr hx
    · exact Or.inl (natToStr_digits mb x hx)
    · exact Or.inr hx
    · exact Or.inl (natToStr_digits mc x hx)
  have hbplus : '+' ∉ natToStr ma ++ '.' :: (natToStr mb ++ '.' :: natToStr mc) := by
    intro hm
    rcases hbody _ hm with h' | h'
    · exact absurd h' (by decide)
    · exact absurd h' (by decide)
  have hbdash : '-' ∉ natToStr ma ++ '.' :: (natToStr mb ++ '.' :: natToStr mc) := by
    intro hm
    rcases hbody _ hm with h' | h'
    · exact absurd h' (by decide)
    · exact absurd h' (by decide)
  have hprePlus : '+' ∉ pre := by
    intro hm
    rcases hpre with h' | h'
    · rw [h'] at hm
      simp at hm
    · rcases validPreParts_chars h' _ hm with h'' | h''
      · exact absurd h'' (by decide)
      · exact absurd h'' (by decide)
  have hcomps := parseComps_body b1 b2 b3
  by_cases hp : pre = [] <;> by_cases hm : meta = []
  · -- no pre-release, no metadata
    have hvs : vString ⟨ma, mb, mc, pre, meta⟩ =
        natToStr ma ++ '.' :: (natToStr mb ++ '.' :: natToStr mc) := by
      simp [vString, hp, hm]
    rw [hvs]
    simp only [newVersion]
    split
    · next hcontra =>
      rw [hA] at hcontra
      simp [hdv] at hcontra
    · rw [splitFirst_of_not_mem hbplus]
      rw [splitFirst_of_not_mem hbdash]
      rw [hcomps]
      simp [mkVersion, hp, hm]
  · -- metadata only
    have hvs : vString ⟨ma, mb, mc, pre, meta⟩ =
        (natToStr ma ++ '.' :: (natToStr mb ++ '.' :: natToStr mc)) ++ '+' :: meta := by
      simp [vString, hp, hm]
    rw [hvs]
    simp only [newVersion]
    split
    · next hcontra =>
      rw [hA] at hcontra
      simp [hdv] at hcontra
    · rw [splitFirst_append hbplus]
      rw [splitFirst_of_not_mem hbdash]
      rw [hcomps]
      have hmv : validMetaParts meta = true := by
        rcases hmeta with h' | h'
        · exact absurd h' hm
        · exact h'
      simp [mkVersion, hp, hmv]
  · -- pre-release only
    have hvs : vString ⟨ma, mb, mc, pre, meta⟩ =
        (natToStr ma ++ '.' :: (natToStr mb ++ '.' :: natToStr mc)) ++ '-' :: pre := by
      simp [vString, hp, hm]
    have hplus : '+' ∉ (natToStr ma ++ '.' :: (natToStr mb ++ '.' :: natToStr mc)) ++
        '-' :: pre := by
      intro hmem
      rcases List.mem_append.mp hmem with h' | h'
      · exact hbplus h'
      · rcases List.mem_cons.mp h' with h'' | h''
        · exact absurd h'' (by decide)
        · exact hprePlus h''
    rw [hvs]
    simp only [newVersion]
    split
    · next hcontra =>
      rw [hA] at hcontra
      simp [hdv] at hcontra
    · rw [splitFirst_of_not_mem hplus]
      rw [splitFirst_append hbdash]
      rw [hcomps]
      have hpv : validPreParts pre = true := by
        rcases hpre with h' | h'
        · exact absurd h' hp
        · exact h'
      simp [mkVersion, hpv, hm]
  · -- pre-release and metadata
    have hvs : vString ⟨ma, mb, mc, pre, meta⟩ =
        ((natToStr ma ++ '.' :: (natToStr mb ++ '.' :: natToStr mc)) ++ '-' :: pre) ++
          '+' :: meta := by
      simp [vString, hp, hm]
    have hplus : '+' ∉ (natToStr ma ++ '.' :: (natToStr mb ++ '.' :: natToStr mc)) ++
        '-' :: pre := by
      intro hmem
      rcases List.mem_append.mp hmem with h' | h'
      · exact hbplus h'
      · rcases List.mem_cons.mp h' with h'' | h''
        · exact absurd h'' (by decide)
        · exact hprePlus h''
    rw [hvs]
    simp only [newVersion]
    split
    · next hcontra =>
      rw [hA] at hcontra
      simp [hdv] at hcontra
    · rw [splitFirst_append hplus]
      rw [splitFirst_append hbdash]
      rw [hcomps]
      have hpv : validPreParts pre = true := by
        rcases hpre with h' | h'
        · exact absurd h' hp
        · exact h'
      have hmv : validMetaParts meta = true := by
        rcases hmeta with h' | h'
        · exact absurd h' hm
        · exact h'
      simp [mkVersion, hpv, hmv]

/-!  ## Sorting lemmas -/

theorem insertLe_perm {α : Type} (le : α → α → Bool) (a : α) :
    ∀ l : List α, (insertLe le a l).Perm (a :: l) := by
  intro l
  induction l with
  | nil => exact List.Perm.refl _
  | cons b bs ih =>
    simp only [insertLe]
    split
    · exact List.Perm.refl _
    · exact (List.Perm.cons b ih).trans (List.Perm.swap a b bs)

theorem isortBy_perm {α : Type} (le : α → α → Bool) :
    ∀ l : List α, (isortBy le l).Perm l := by
  intro l
  induction l with
  | nil => exact List.Perm.refl _
  | cons a as ih =>
    simp only [isortBy]
    exact (insertLe_perm le a _).trans (List.Perm.cons a ih)

theorem insertLe_pairwise {α : Type} (le : α → α → Bool) (a : α) (l : List α)
    (htot : ∀ x ∈ a :: l, ∀ y ∈ a :: l, le x y = true ∨ le y x = true)
    (htr : ∀ x ∈ a :: l, ∀ y ∈ a :: l, ∀ z ∈ a :: l,
      le x y = true → le y z = true → le x z = true)
    (hs : l.Pairwise (fun x y => le x y = true)) :
    (insertLe le a l).Pairwise (fun x y => le x y = true) := by
  induction l with
  | nil => simp [insertLe]
  | cons b bs ih =>
    rcases List.pairwise_cons.mp hs with ⟨hb, hbs⟩
    have hsub : ∀ x, x ∈ a :: bs → x ∈ a :: b :: bs := by
      intro x hx
      rcases List.mem_cons.mp hx with rfl | hx'
      · simp
      · simp [hx']
    simp only [insertLe]
    by_cases hab : le a b = true
    · rw [if_pos hab]
      refine List.pairwise_cons.mpr ⟨?_, hs⟩
      intro y hy
      rcases List.mem_cons.mp hy with rfl | hy'
      · exact hab
      · exact htr a (by simp) b (by simp) y (by simp [hy']) hab (hb y hy')
    · rw [if_neg hab]
      have hba : le b a = true := by
        rcases htot a (by simp) b (by simp) with h | h
        · exact absurd h hab
        · exact h
      refine List.pairwise_cons.mpr ⟨?_, ?_⟩
      · intro y hy
        have hy' : y ∈ a :: bs := (insertLe_perm le a bs).mem_iff.mp hy
        rcases List.mem_cons.mp hy' with rfl | hy''
        · exact hba
        · exact hb y hy''
      · exact ih (fun x hx y hy => htot x (hsub x hx) y (hsub y hy))
          (fun x hx y hy z hz => htr x (hsub x hx) y (hsub y hy) z (hsub z hz)) hbs

theorem isortBy_pairwise {α : Type} (le : α → α → Bool) (l : List α)
    (htot : ∀ x ∈ l, ∀ y ∈ l, le x y = true ∨ le y x = true)
    (htr : ∀ x ∈ l, ∀ y ∈ l, ∀ z ∈ l,
      le x y = true → le y z = true → le x z = true) :
    (isortBy le l).Pairwise (fun x y => le x y = true) := by
  induction l with
  | nil => simp [isortBy]
  | cons a as ih =>
    have hsub : ∀ x, x ∈ as → x ∈ a :: as := fun x hx => by simp [hx]
    have hmem : ∀ x, x ∈ a :: isortBy le as → x ∈ a :: as := by
      intro x hx
      rcases List.mem_cons.mp hx with rfl | hx'
      · simp
      · exact List.mem_cons.mpr (Or.inr ((isortBy_perm le as).mem_iff.mp hx'))
    simp only [isortBy]
    exact insertLe_pairwise le a (isortBy le as)
      (fun x hx y hy => htot x (hmem x hx) y (hmem y hy))
      (fun x hx y hy z hz => htr x (hmem x hx) y (hmem y hy) z (hmem z hz))
      (ih (fun x hx y hy => htot x (hsub x hx) y (hsub y hy))
        (fun x hx y hy z hz => htr x (hsub x hx) y (hsub y hy) z (hsub z hz)))

/-- Totality of the descending order on canonical versions. -/
theorem descLe_total {a b : Version} (ha : VCanon a) (hb : VCanon b) :
    descLe a b = true ∨ descLe b a = true := by
  unfold descLe
  by_cases h : 0 ≤ compareV a b
  · exact Or.inl (by simpa using h)
  · right
    have hflip := compareV_flip ha hb
    simp only [decide_eq_true_eq]
    omega

/-- Transitivity of the descending order on canonical versions. -/
theorem descLe_trans {a b c : Version} (ha : VCanon a) (hb : VCanon b)
    (hc : VCanon c) (h1 : descLe a b = true) (h2 : descLe b c = true) :
    descLe a c = true := by
  unfold descLe at h1 h2 ⊢
  simp only [decide_eq_true_eq] at h1 h2 ⊢
  have f1 := compareV_flip ha hb
  have f2 := compareV_flip hb hc
  have f3 := compareV_flip ha hc
  have := compareV_trans_np hc hb ha (by omega) (by omega)
  omega

/-!  ## `sortVersions` structure -/

theorem sortVersions_decomp (versions : List Str) :
    sortVersions versions =
      ((isortBy descLe (versions.filterMap newVersion)).map vString) ++
        versions.drop (versions.filterMap newVersion).length := rfl

theorem filterMap_length_le {α β : Type} (f : α → Option β) :
    ∀ l : List α, (l.filterMap f).length ≤ l.length := by
  intro l
  induction l with
  | nil => simp
  | cons a as ih =>
    rw [List.filterMap_cons]
    cases f a <;> simp <;> omega

theorem sortVersions_length (versions : List Str) :
    (sortVersions versions).length = versions.length := by
  rw [sortVersions_decomp, List.length_append, List.length_map,
    (isortBy_perm descLe _).length_eq, List.length_drop]
  have := filterMap_length_le newVersion versions
  omega

theorem sortVersions_take (versions : List Str) :
    (sortVersions versions).take (versions.filterMap newVersion).length =
      (isortBy descLe (versions.filterMap newVersion)).map vString := by
  rw [sortVersions_decomp]
  have hl : ((isortBy descLe (versions.filterMap newVersion)).map vString).length =
      (versions.filterMap newVersion).length := by
    rw [List.length_map, (isortBy_perm descLe _).length_eq]
  rw [← hl, List.take_left]

theorem sortVersions_drop (versions : List Str) :
    (sortVersions versions).drop (versions.filterMap newVersion).length =
      versions.drop (versions.filterMap newVersion).length := by
  rw [sortVersions_decomp]
  have hl : ((isortBy descLe (versions.filterMap newVersion)).map vString).length =
      (versions.filterMap newVersion).length := by
    rw [List.length_map, (isortBy_perm descLe _).length_eq]
  rw [← hl, List.drop_left]

theorem sortVersions_sorted (versions : List Str) :
    (isortBy descLe (versions.filterMap newVersion)).Pairwise
      (fun x y => descLe x y = true) := by
  apply isortBy_pairwise
  · intro x hx y hy
    exact descLe_total (newVersion_VCanon (List.mem_filterMap.mp hx).choose_spec.2)
      (newVersion_VCanon (List.mem_filterMap.mp hy).choose_spec.2)
  · intro x hx y hy z hz
    exact descLe_trans (newVersion_VCanon (List.mem_filterMap.mp hx).choose_spec.2)
      (newVersion_VCanon (List.mem_filterMap.mp hy).choose_spec.2)
      (newVersion_VCanon (List.mem_filterMap.mp hz).choose_spec.2)

theorem vString_ne_nil (v : Version) : vString v ≠ [] := by
  intro h
  unfold vString at h
  rcases List.append_eq_nil.mp h with ⟨h1, _⟩
  rcases List.append_eq_nil.mp h1 with ⟨h2, _⟩
  rcases List.append_eq_nil.mp h2 with ⟨_, h3⟩
  simp at h3

/-- Every entry of `sortVersions`' output is a canonical string or one of
the original entries. -/
theorem sortVersions_mem {versions : List Str} {s : Str}
    (h : s ∈ sortVersions versions) :
    (∃ w, VOk w ∧ s = vString w ∧ w ∈ versions.filterMap newVersion) ∨
      s ∈ versions := by
  rw [sortVersions_decomp] at h
  rcases List.mem_append.mp h with h' | h'
  · left
    obtain ⟨w, hw, hws⟩ := List.mem_map.mp h'
    have hwmem := (isortBy_perm descLe _).mem_iff.mp hw
    obtain ⟨t, _, ht⟩ := List.mem_filterMap.mp hwmem
    exact ⟨w, newVersion_VOk ht, hws.symm, hwmem⟩
  · exact Or.inr (List.mem_of_mem_drop h')

/-!  ## The constraint-maximum loop -/

theorem satList_cons_none {c : Constraints} {r : Str} {l : List Str}
    (hr : newVersion r = none) : satList c (r :: l) = satList c l := by
  simp [satList, List.filterMap_cons, hr]

theorem satList_cons_sat {c : Constraints} {r : Str} {l : List Str} {v : Version}
    (hr : newVersion r = some v) (hchk : checkC c v = true) :
    satList c (r :: l) = v :: satList c l := by
  simp [satList, List.filterMap_cons, hr, List.filter_cons, hchk]

theorem satList_cons_unsat {c : Constraints} {r : Str} {l : List Str} {v : Version}
    (hr : newVersion r = some v) (hchk : checkC c v = false) :
    satList c (r :: l) = satList c l := by
  simp [satList, List.filterMap_cons, hr, List.filter_cons, hchk]

theorem satList_canon {c : Constraints} {l : List Str} {v : Version}
    (h : v ∈ satList c l) : VCanon v := by
  obtain ⟨s, _, hs⟩ := List.mem_filterMap.mp (List.mem_filter.mp h).1
  exact newVersion_VCanon hs

theorem satList_src {c : Constraints} {l : List Str} {v : Version}
    (h : v ∈ satList c l) : ∃ s ∈ l, newVersion s = some v :=
  List.mem_filterMap.mp (List.mem_filter.mp h).1

theorem satList_sat {c : Constraints} {l : List Str} {v : Version}
    (h : v ∈ satList c l) : checkC c v = true :=
  List.mem_filter.mp h |>.2

/-- Invariant of the fold in `findMax`: the result is the running maximum
or a satisfying candidate, it bounds every satisfying candidate from above,
and it bounds the initial accumulator. -/
theorem findMax_fold_spec (c : Constraints) :
    ∀ (l : List Str) (acc : Option Version),
    (∀ a, acc = some a → VCanon a) →
    (match l.foldl (findMaxStep c) acc with
     | none => acc = none ∧ satList c l = []
     | some m =>
        (acc = some m ∨ m ∈ satList c l) ∧ VCanon m ∧
        (∀ w ∈ satList c l, compareV w m ≤ 0) ∧
        (∀ a, acc = some a → compareV a m ≤ 0)) := by
  intro l
  induction l with
  | nil =>
    intro acc hacc
    cases acc with
    | none => exact ⟨rfl, rfl⟩
    | some a =>
      refine ⟨Or.inl rfl, hacc a rfl, ?_, ?_⟩
      · intro w hw
        simp [satList] at hw
      · intro b hb
        have hab : a = b := by injection hb
        subst hab
        simp [compareV_self]
  | cons r l ih =>
    intro acc hacc
    simp only [List.foldl_cons]
    rcases hr : newVersion r with _ | v
    · have hstep : findMaxStep c acc r = acc := by simp [findMaxStep, hr]
      rw [hstep, satList_cons_none hr]
      exact ih acc hacc
    · have hvc : VCanon v := newVersion_VCanon hr
      rcases hb : checkC c v with _ | _
      · -- candidate does not satisfy the constraint
        have hstep : findMaxStep c acc r = acc := by simp [findMaxStep, hr, hb]
        rw [hstep, satList_cons_unsat hr hb]
        exact ih acc hacc
      · rw [satList_cons_sat hr hb]
        cases acc with
        | none =>
          have hstep : findMaxStep c none r = some v := by
            simp [findMaxStep, hr, hb]
          rw [hstep]
          have H := ih (some v) (fun a ha => by
            have hva : v = a := by injection ha
            subst hva
            exact hvc)
          rcases hres : List.foldl (findMaxStep c) (some v) l with _ | m <;>
            rw [hres] at H
          · exact absurd H.1 (by simp)
          · obtain ⟨hmem, hmc, hall, haccle⟩ := H
            refine ⟨?_, hmc, ?_, ?_⟩
            · right
              rcases hmem with h' | h'
              · have hvm : v = m := by injection h'
                subst hvm
                simp
              · simp [h']
            · intro w hw
              rcases List.mem_cons.mp hw with rfl | hw'
              · exact haccle w rfl
              · exact hall w hw'
            · intro b hbb
              simp at hbb
        | some a0 =>
          have ha0 : VCanon a0 := hacc a0 rfl
          by_cases hgt : 0 < compareV v a0
          · have hstep : findMaxStep c (some a0) r = some v := by
              simp [findMaxStep, hr, hb, hgt]
            rw [hstep]
            have H := ih (some v) (fun a ha => by
              have hva : v = a := by injection ha
              subst hva
              exact hvc)
            rcases hres : List.foldl (findMaxStep c) (some v) l with _ | m <;>
              rw [hres] at H
            · exact absurd H.1 (by simp)
            · obtain ⟨hmem, hmc, hall, haccle⟩ := H
              have hvm : compareV v m ≤ 0 := haccle v rfl
              refine ⟨?_, hmc, ?_, ?_⟩
              · right
                rcases hmem with h' | h'
                · have hvm' : v = m := by injection h'
                  subst hvm'
                  simp
                · simp [h']
              · intro w hw
                rcases List.mem_cons.mp hw with rfl | hw'
                · exact hvm
                · exact hall w hw'
              · intro b hbb
                have hab : a0 = b := by injection hbb
                subst hab
                have hflip := compareV_flip hvc ha0
                have hva : compareV a0 v ≤ 0 := by omega
                exact compareV_trans_np ha0 hvc hmc hva hvm
          · have hstep : findMaxStep c (some a0) r = some a0 := by
              simp [findMaxStep, hr, hb, hgt]
            rw [hstep]
            have H := ih (some a0) hacc
            rcases hres : List.foldl (findMaxStep c) (some a0) l with _ | m <;>
              rw [hres] at H
            · exact absurd H.1 (by simp)
            · obtain ⟨hmem, hmc, hall, haccle⟩ := H
              have ham : compareV a0 m ≤ 0 := haccle a0 rfl
              refine ⟨?_, hmc, ?_, haccle⟩
              · rcases hmem with h' | h'
                · exact Or.inl h'
                · exact Or.inr (by simp [h'])
              · intro w hw
                rcases List.mem_cons.mp hw with rfl | hw'
                · have hva : compareV w a0 ≤ 0 := by omega
                  exact compareV_trans_np hvc ha0 hmc hva ham
                · exact hall w hw'

theorem findMax_none {c : Constraints} {l : List Str} (h : findMax c l = none) :
    satList c l = [] := by
  have H := findMax_fold_spec c l none (fun a ha => by simp at ha)
  rw [findMax] at h
  rw [h] at H
  exact H.2

theorem findMax_some {c : Constraints} {l : List Str} {m : Version}
    (h : findMax c l = some m) :
    m ∈ satList c l ∧ VCanon m ∧ ∀ w ∈ satList c l, compareV w m ≤ 0 := by
  have H := findMax_fold_spec c l none (fun a ha => by simp at ha)
  rw [findMax] at h
  rw [h] at H
  obtain ⟨hmem, hmc, hall, _⟩ := H
  rcases hmem with h' | h'
  · simp at h'
  · exact ⟨h', hmc, hall⟩

theorem findMax_none_iff {c : Constraints} {l : List Str} :
    findMax c l = none ↔ satList c l = [] := by
  constructor
  · exact findMax_none
  · intro h
    rcases hres : findMax c l with _ | m
    · rfl
    · have hmem := (findMax_some hres).1
      rw [h] at hmem
      simp at hmem

/-!  ## The exact-match step -/

theorem exactMatchStep_eq (versions : List Str) (spec : Str) :
    exactMatchStep versions spec =
      if trimPrefixGoStr spec (str "v") ∈ versions then
        some (trimPrefixGoStr spec (str "v"))
      else none := by
  induction versions with
  | nil => simp [exactMatchStep]
  | cons r l ih =>
    by_cases hr : r = trimPrefixGoStr spec (str "v")
    · unfold exactMatchStep
      rw [List.find?_cons_of_pos _ (by simp [hr]),
        if_pos (List.mem_cons.mpr (Or.inl hr.symm)), hr]
    · unfold exactMatchStep at ih ⊢
      rw [List.find?_cons_of_neg _ (by simp [hr]), ih]
      by_cases hm : trimPrefixGoStr spec (str "v") ∈ l
      · rw [if_pos hm, if_pos (List.mem_cons.mpr (Or.inr hm))]
      · rw [if_neg hm, if_neg ?_]
        intro hc
        rcases List.mem_cons.mp hc with h' | h'
        · exact hr h'.symm
        · exact hm h'

/-!  ## Further structural helpers -/

theorem isValidVersion_ne_nil {x : Str} (h : isValidVersion x = true) :
    x ≠ [] := by
  intro hx
  rw [hx] at h
  exact absurd h (by decide)

theorem splitChar_headD_eq_takeWhile (sep : Char) : ∀ s : Str,
    (splitChar sep s).headD [] = s.takeWhile (fun c => !(c == sep)) := by
  intro s
  induction s with
  | nil => rfl
  | cons c cs ih =>
    by_cases hc : c = sep
    · subst hc
      simp [splitChar, List.takeWhile]
    · rcases hsp : splitChar sep cs with _ | ⟨p, ps⟩
      · exact absurd hsp (splitChar_ne_nil _ _)
      · rw [hsp] at ih
        simp only [splitChar, if_neg hc, hsp, List.takeWhile]
        simp only [List.headD_cons] at ih ⊢
        have hbc : (c == sep) = false := by
          simp [hc]
        rw [hbc]
        simp [ih]

/-- The head of `sortVersions`' output bounds, in precedence, every entry of
the output that parses. -/
theorem sortVersions_head_max {L : List Str} {v : Str} {rest : List Str}
    (hL : sortVersions L = v :: rest) :
    ∀ t ∈ sortVersions L, ∀ vt vh, newVersion t = some vt →
      newVersion v = some vh → compareV vt vh ≤ 0 := by
  intro t ht vt vh hvt hvh
  have hdec := sortVersions_decomp L
  have hvt_mem : vt ∈ L.filterMap newVersion := by
    rcases sortVersions_mem ht with ⟨w, hwok, hws, hwmem⟩ | htL
    · rw [hws] at hvt
      rw [newVersion_vString hwok] at hvt
      have hw : w = vt := by injection hvt
      rw [← hw]
      exact hwmem
    · exact List.mem_filterMap.mpr ⟨t, htL, hvt⟩
  rcases hsrt : isortBy descLe (L.filterMap newVersion) with _ | ⟨j, js⟩
  · -- nothing parsed, yet `vt` parses: impossible
    have hlen : (L.filterMap newVersion).length = 0 := by
      have := (isortBy_perm descLe (L.filterMap newVersion)).length_eq
      rw [hsrt] at this
      simpa using this.symm
    rw [List.eq_nil_of_length_eq_zero hlen] at hvt_mem
    simp at hvt_mem
  · -- the head of the output is the canonical string of the sorted head
    have hvj : v = vString j := by
      rw [hdec, hsrt] at hL
      simp only [List.map_cons, List.cons_append, List.cons.injEq] at hL
      exact hL.1.symm
    have hjmem : j ∈ L.filterMap newVersion := by
      have hj : j ∈ isortBy descLe (L.filterMap newVersion) := by
        rw [hsrt]
        simp
      exact (isortBy_perm descLe (L.filterMap newVersion)).mem_iff.mp hj
    obtain ⟨sj, _, hsj⟩ := List.mem_filterMap.mp hjmem
    have hjok : VOk j := newVersion_VOk hsj
    have hvh_eq : vh = j := by
      rw [hvj, newVersion_vString hjok] at hvh
      injection hvh with h'
      exact h'.symm
    rw [hvh_eq]
    have hvt_srt : vt ∈ j :: js := by
      rw [← hsrt]
      exact (isortBy_perm descLe (L.filterMap newVersion)).mem_iff.mpr hvt_mem
    rcases List.mem_cons.mp hvt_srt with rfl | hvt_js
    · simp [compareV_self]
    · have hsorted := sortVersions_sorted L
      rw [hsrt] at hsorted
      have hle := (List.pairwise_cons.mp hsorted).1 vt hvt_js
      have hcj : VCanon j := hjok.canon
      have hcvt : VCanon vt := by
        obtain ⟨st, _, hst⟩ := List.mem_filterMap.mp hvt_mem
        exact newVersion_VCanon hst
      unfold descLe at hle
      simp only [decide_eq_true_eq] at hle
      have hflip := compareV_flip hcj hcvt
      omega

/-!  ## The claims -/

/-- C1: whenever the spec, after stripping a single leading `v`, is
verbatim equal to some element of `versions`, `maxSatisfying` returns that
element immediately — no constraint is parsed or evaluated; in particular
`maxSatisfying ["1.0.0-alpha"] "1.0.0-alpha" = "1.0.0-alpha"`. -/
theorem maxSatisfying_exact_short_circuit :
    (∀ (versions : List Str) (spec : Str),
      trimPrefixGoStr spec (str "v") ∈ versions →
      maxSatisfying versions spec = trimPrefixGoStr spec (str "v")) ∧
    maxSatisfying [str "1.0.0-alpha"] (str "1.0.0-alpha") = str "1.0.0-alpha" := by
  constructor
  · intro versions spec hmem
    unfold maxSatisfying
    rw [exactMatchStep_eq, if_pos hmem]
  · decide

theorem maxSatisfying_exact_short_circuit_witness :
    trimPrefixGoStr (str "v1.2.3") (str "v") ∈ [str "9.9.9", str "1.2.3"] ∧
    maxSatisfying [str "9.9.9", str "1.2.3"] (str "v1.2.3") =
      trimPrefixGoStr (str "v1.2.3") (str "v") :=
  ⟨by decide, maxSatisfying_exact_short_circuit.1 [str "9.9.9", str "1.2.3"]
    (str "v1.2.3") (by decide)⟩

/-- C2: with no verbatim exact match, an unparsable spec makes
`maxSatisfying` return the empty string (not an error); otherwise each
candidate is parsed (unparsable ones skipped) and the result is the
canonical string of a satisfying candidate of maximum precedence, or the
empty string when none satisfies; in particular
`maxSatisfying ["1.0.0","1.1.0","2.0.0"] ">=1.0.0 <2.0.0" = "1.1.0"` and
`maxSatisfying ["1.0.0","1.1.0","2.0.0"] "3.0.0" = ""`. -/
theorem maxSatisfying_constraint_semantics :
    (∀ (versions : List Str) (spec : Str),
      trimPrefixGoStr spec (str "v") ∉ versions →
      (newConstraint spec = none → maxSatisfying versions spec = str "") ∧
      (∀ c, newConstraint spec = some c →
        (satList c versions = [] → maxSatisfying versions spec = str "") ∧
        (satList c versions ≠ [] → ∃ m ∈ satList c versions,
          maxSatisfying versions spec = vString m ∧
          ∀ w ∈ satList c versions, compareV w m ≤ 0))) ∧
    maxSatisfying [str "1.0.0", str "1.1.0", str "2.0.0"]
      (str ">=1.0.0 <2.0.0") = str "1.1.0" ∧
    maxSatisfying [str "1.0.0", str "1.1.0", str "2.0.0"] (str "3.0.0") =
      str "" := by
  have hnoexact : ∀ (versions : List Str) (spec : Str),
      trimPrefixGoStr spec (str "v") ∉ versions →
      maxSatisfying versions spec =
        (match newConstraint spec with
         | none => []
         | some c =>
           match findMax c versions with
           | none => ([] : Str)
           | some m => vString m) := by
    intro versions spec hmem
    unfold maxSatisfying
    rw [exactMatchStep_eq, if_neg hmem]
  refine ⟨?_, by decide, by decide⟩
  intro versions spec hmem
  constructor
  · intro hc
    rw [hnoexact versions spec hmem, hc]
    rfl
  · intro c hc
    rw [hnoexact versions spec hmem, hc]
    constructor
    · intro hsat
      show (match findMax c versions with
        | none => ([] : Str)
        | some m => vString m) = str ""
      rw [findMax_none_iff.mpr hsat]
      rfl
    · intro hsat
      show ∃ m ∈ satList c versions,
        (match findMax c versions with
          | none => ([] : Str)
          | some m => vString m) = vString m ∧
        ∀ w ∈ satList c versions, compareV w m ≤ 0
      rcases hres : findMax c versions with _ | m
      · exact absurd (findMax_none hres) hsat
      · obtain ⟨hmm, _, hmax⟩ := findMax_some hres
        exact ⟨m, hmm, rfl, hmax⟩

theorem maxSatisfying_constraint_semantics_witness :
    trimPrefixGoStr (str "invalid") (str "v") ∉ [str "1.0.0"] ∧
    newConstraint (str "invalid") = none ∧
    maxSatisfying [str "1.0.0"] (str "invalid") = str "" :=
  ⟨by decide, by decide,
    (maxSatisfying_constraint_semantics.1 [str "1.0.0"] (str "invalid")
      (by decide)).1 (by decide)⟩

/-- C10: the exact-match step strips the leading `v` only from the spec,
never from the candidates, which are compared verbatim: a list containing
`"1.2.3"` exact-matches the spec `"v1.2.3"` and `"1.2.3"` is returned;
the element `"v1.2.3"` is never returned by the exact-match step for the
specs `"1.2.3"` or `"v1.2.3"`, and for a list containing `"v1.2.3"` but not
`"1.2.3"` the exact-match step finds nothing for either spec. -/
theorem maxSatisfying_exact_verbatim :
    (∀ versions : List Str, str "1.2.3" ∈ versions →
      maxSatisfying versions (str "v1.2.3") = str "1.2.3") ∧
    (∀ (versions : List Str) (spec : Str),
      spec = str "1.2.3" ∨ spec = str "v1.2.3" →
      exactMatchStep versions spec ≠ some (str "v1.2.3")) ∧
    (∀ versions : List Str, str "v1.2.3" ∈ versions →
      str "1.2.3" ∉ versions →
      exactMatchStep versions (str "1.2.3") = none ∧
      exactMatchStep versions (str "v1.2.3") = none) := by
  refine ⟨?_, ?_, ?_⟩
  · intro versions hmem
    unfold maxSatisfying
    rw [exactMatchStep_eq, if_pos (by exact hmem)]
    show trimPrefixGoStr (str "v1.2.3") (str "v") = str "1.2.3"
    decide
  · intro versions spec hspec
    rcases hspec with h | h <;> subst h <;> rw [exactMatchStep_eq] <;> split
    · decide
    · simp
    · decide
    · simp
  · intro versions _ hnmem
    constructor
    · rw [exactMatchStep_eq, if_neg (by exact hnmem)]
    · rw [exactMatchStep_eq, if_neg (by exact hnmem)]

theorem maxSatisfying_exact_verbatim_witness :
    str "1.2.3" ∈ [str "v1.2.3", str "1.2.3"] ∧
    maxSatisfying [str "v1.2.3", str "1.2.3"] (str "v1.2.3") = str "1.2.3" :=
  ⟨by decide, maxSatisfying_exact_verbatim.1 [str "v1.2.3", str "1.2.3"]
    (by decide)⟩

/-- C3: after `sortVersions`, with N the number of entries that parse, the
first N entries are the canonical strings of the parsed versions in
non-increasing precedence order, each parsing back to a version equal in
precedence to the parse of some input entry; the entries beyond the first N
keep their original values, and the length is unchanged. -/
theorem sortVersions_spec :
    ∀ versions : List Str,
      (sortVersions versions).length = versions.length ∧
      (sortVersions versions).drop (versions.filterMap newVersion).length =
        versions.drop (versions.filterMap newVersion).length ∧
      ((sortVersions versions).take
        (versions.filterMap newVersion).length).Pairwise
        (fun a b => ∃ va vb, newVersion a = some va ∧ newVersion b = some vb ∧
          0 ≤ compareV va vb) ∧
      (∃ vs', (versions.filterMap newVersion).Perm vs' ∧
        (sortVersions versions).take (versions.filterMap newVersion).length =
          vs'.map vString) ∧
      (∀ s ∈ (sortVersions versions).take
          (versions.filterMap newVersion).length,
        ∃ va, newVersion s = some va ∧ ∃ raw ∈ versions, ∃ w,
          newVersion raw = some w ∧ compareV va w = 0) := by
  intro versions
  have htake := sortVersions_take versions
  have hcanon : ∀ w ∈ isortBy descLe (versions.filterMap newVersion),
      VOk w := by
    intro w hw
    have hw' := (isortBy_perm descLe _).mem_iff.mp hw
    obtain ⟨t, _, ht⟩ := List.mem_filterMap.mp hw'
    exact newVersion_VOk ht
  refine ⟨sortVersions_length versions, sortVersions_drop versions, ?_, ?_, ?_⟩
  · rw [htake, List.pairwise_map]
    have hsorted := sortVersions_sorted versions
    refine List.Pairwise.imp_of_mem ?_ hsorted
    intro a b ha hb hle
    refine ⟨a, b, newVersion_vString (hcanon a ha), newVersion_vString (hcanon b hb), ?_⟩
    unfold descLe at hle
    simpa using hle
  · exact ⟨isortBy descLe (versions.filterMap newVersion),
      (isortBy_perm descLe _).symm, htake⟩
  · intro s hs
    rw [htake] at hs
    obtain ⟨w, hw, hws⟩ := List.mem_map.mp hs
    have hwok := hcanon w hw
    have hw' := (isortBy_perm descLe _).mem_iff.mp hw
    obtain ⟨raw, hraw, ht⟩ := List.mem_filterMap.mp hw'
    exact ⟨w, by rw [← hws]; exact newVersion_vString hwok,
      raw, hraw, w, ht, compareV_self w⟩

theorem sortVersions_spec_witness :
    (sortVersions [str "1.0.0", str "invalid", str "2.0.0"]).length = 3 ∧
    (∃ va, newVersion (str "2.0.0") = some va ∧
      ∃ raw ∈ [str "1.0.0", str "invalid", str "2.0.0"], ∃ w,
        newVersion raw = some w ∧ compareV va w = 0) := by
  have H := sortVersions_spec [str "1.0.0", str "invalid", str "2.0.0"]
  exact ⟨H.1, H.2.2.2.2 (str "2.0.0") (by decide)⟩

/-- Entries of the valid-version list are nonempty strings. -/
theorem validVersions_ne_nil {tags : List Str} {s : Str}
    (h : s ∈ sortVersions (tags.filter isValidVersion)) : s ≠ [] := by
  rcases sortVersions_mem h with ⟨w, _, hws, _⟩ | hmem
  · rw [hws]
    exact vString_ne_nil w
  · exact isValidVersion_ne_nil (List.mem_filter.mp hmem).2

/-- C4: with a non-empty, non-"latest" spec that no version satisfies, the
orchestrator uses the spec verbatim as an unprefixed branch checkout
reference with the verified output `"false"` and no post-install
verification when the spec is among the branches, and fails fatally when it
is not; when a version is selected instead, the checkout reference is
`"v" + version` and the verified output is `"true"`. -/
theorem installGop_branch_fallback :
    (∀ (spec : Str) (tags branches : List Str),
      spec ≠ [] → spec ≠ str "latest" →
      maxSatisfying (sortVersions (tags.filter isValidVersion)) spec = [] →
      (containsStr branches spec = true →
        installGopResolve spec tags branches =
          .ok spec (str "false") none) ∧
      (containsStr branches spec = false →
        ∃ msg, installGopResolve spec tags branches = .fatalErr msg)) ∧
    (∀ (spec : Str) (tags branches : List Str),
      spec ≠ [] → spec ≠ str "latest" →
      maxSatisfying (sortVersions (tags.filter isValidVersion)) spec ≠ [] →
      installGopResolve spec tags branches =
        .ok (str "v" ++ maxSatisfying (sortVersions (tags.filter isValidVersion)) spec)
          (str "true")
          (some (maxSatisfying (sortVersions (tags.filter isValidVersion)) spec))) ∧
    (∀ (spec : Str) (tags branches : List Str) (v : Str) (rest : List Str),
      (spec = [] ∨ spec = str "latest") →
      sortVersions (tags.filter isValidVersion) = v :: rest →
      installGopResolve spec tags branches =
        .ok (str "v" ++ v) (str "true") (some v)) := by
  refine ⟨?_, ?_, ?_⟩
  · intro spec tags branches h1 h2 hmax
    unfold installGopResolve
    rw [if_neg (by simp [h1, h2]), hmax, if_pos rfl]
    constructor
    · intro hbr
      rw [if_pos hbr]
      unfold deriveCheckout
      rw [if_neg (by simp)]
    · intro hbr
      rw [if_neg (by simp [hbr])]
      exact ⟨_, rfl⟩
  · intro spec tags branches h1 h2 hmax
    unfold installGopResolve
    rw [if_neg (by simp [h1, h2]), if_neg (by simpa using hmax)]
    unfold deriveCheckout
    rw [if_pos (by simpa using hmax)]
  · intro spec tags branches v rest hspec hsort
    have hv : v ≠ [] :=
      validVersions_ne_nil (by rw [hsort]; simp)
    unfold installGopResolve
    rw [if_pos hspec, hsort]
    show deriveCheckout v spec = _
    unfold deriveCheckout
    rw [if_pos (by simpa using hv)]

theorem installGop_branch_fallback_witness :
    str "feature-x" ≠ ([] : Str) ∧ str "feature-x" ≠ str "latest" ∧
    maxSatisfying (sortVersions (List.filter isValidVersion [str "1.0.0"]))
      (str "feature-x") = [] ∧
    containsStr [str "feature-x"] (str "feature-x") = true ∧
    installGopResolve (str "feature-x") [str "1.0.0"] [str "feature-x"] =
      .ok (str "feature-x") (str "false") none :=
  ⟨by decide, by decide, by decide, by decide,
    (installGop_branch_fallback.1 (str "feature-x") [str "1.0.0"]
      [str "feature-x"] (by decide) (by decide) (by decide)).1 (by decide)⟩

/-- C5: with an empty or `"latest"` spec, the selected version is the first
(and precedence-highest) entry of the sorted valid-version list, and the run
fails fatally — a runtime panic from indexing an empty slice — when that
list is empty. -/
theorem installGop_latest_selection :
    ∀ (spec : Str) (tags branches : List Str),
      (spec = [] ∨ spec = str "latest") →
      (sortVersions (tags.filter isValidVersion) = [] →
        installGopResolve spec tags branches = .panicked) ∧
      (∀ v rest, sortVersions (tags.filter isValidVersion) = v :: rest →
        installGopResolve spec tags branches =
          .ok (str "v" ++ v) (str "true") (some v) ∧
        (∀ t ∈ sortVersions (tags.filter isValidVersion), ∀ vt vh,
          newVersion t = some vt → newVersion v = some vh →
          compareV vt vh ≤ 0)) := by
  intro spec tags branches hspec
  constructor
  · intro hempty
    unfold installGopResolve
    rw [if_pos hspec, hempty]
  · intro v rest hsort
    constructor
    · have hv : v ≠ [] :=
        validVersions_ne_nil (by rw [hsort]; simp)
      unfold installGopResolve
      rw [if_pos hspec, hsort]
      show deriveCheckout v spec = _
      unfold deriveCheckout
      rw [if_pos (by simpa using hv)]
    · exact sortVersions_head_max hsort

theorem installGop_latest_selection_witness :
    installGopResolve (str "latest") [str "1.0.0", str "2.0.0"] [] =
      .ok (str "v2.0.0") (str "true") (some (str "2.0.0")) := by
  have H := (installGop_latest_selection (str "latest")
    [str "1.0.0", str "2.0.0"] [] (Or.inr rfl)).2 (str "2.0.0") [str "1.0.0"]
    (by decide)
  exact H.1.trans (by decide)

/-- The validity predicate exactly as claim C6 words it: after stripping an
optional leading `v` and splitting off any pre-release/build suffix (at the
first `-` or `+`), exactly three dot-separated numeric components remain,
and the full string parses as a semantic version.  This follows the claim's
words, not the source, for comparison with `isValidVersion`. -/
def isValidVersionClaim (version : Str) : Bool :=
  let version := trimPrefixGoStr version (str "v")
  let core := version.takeWhile (fun c => !(c == '-') && !(c == '+'))
  let parts := splitChar '.' core
  parts.length == 3 && parts.all (fun p => !p.isEmpty && p.all isDigitC) &&
    (newVersion version).isSome

/-- C6 counterexample: `isValidVersion` splits only at the first `-` and
never at `+`, so the valid complete semver `"1.2.3+a.b"` — which the claim
accepts — is rejected by the code (its build metadata inflates the
dot-component count). -/
theorem isValidVersion_counterexample :
    isValidVersionClaim (str "1.2.3+a.b") = true ∧
    isValidVersion (str "1.2.3+a.b") = false := by decide

/-- C6 (amended): `isValidVersion s` is true iff, after stripping an
optional leading `v`, the prefix before the first `-` (build metadata is
not split off; components are not individually checked for numericity) has
exactly three dot-separated components and the `v`-stripped string parses
as a (lenient) semantic version; in particular the claim's four examples
hold. -/
theorem isValidVersion_spec :
    (∀ version : Str,
      isValidVersion version = true ↔
        ((splitChar '.' ((trimPrefixGoStr version (str "v")).takeWhile
            (fun c => !(c == '-')))).length = 3 ∧
          (newVersion (trimPrefixGoStr version (str "v"))).isSome = true)) ∧
    isValidVersion (str "1.0.0") = true ∧
    isValidVersion (str "1.0") = false ∧
    isValidVersion (str "v1.0.0-beta.1") = true ∧
    isValidVersion (str "latest") = false := by
  refine ⟨?_, by decide, by decide, by decide, by decide⟩
  intro version
  unfold isValidVersion
  rw [← splitChar_headD_eq_takeWhile]
  simp only [List.headD_eq_head?_getD]
  by_cases hlen : (splitChar '.'
      ((splitChar '-' (trimPrefixGoStr version (str "v"))).head?.getD [])).length = 3
  · rw [if_neg (by simp [hlen])]
    simp [hlen]
  · rw [if_pos (by simp [hlen])]
    simp [hlen]

/-- C7 counterexample: `checkVersion` parses the expected spec with the
lenient parser, not 4.1's strict grammar: the spec `"1.0"` is not a strict
version, yet `checkVersion "1.0"` against installed `"1.0.0"` succeeds
(where the claim requires failure). -/
theorem checkVersion_counterexample :
    (checkVersion (str "1.0") (.ok (str "1.0.0"))).isOk = true ∧
    isValidVersion (str "1.0") = false ∧
    isValidVersion (str "1.0.0") = true := by decide

/-- C7 (amended): with the installed version reported successfully,
`checkVersion` succeeds iff both the expected spec and the reported string
parse as (lenient Masterminds) versions — short forms like `"1.0"` are
zero-padded, unlike 4.1's strict grammar — that are equal by semantic
precedence (build metadata ignored); the claim's examples hold. -/
theorem checkVersion_spec :
    (∀ (spec actual : Str),
      checkVersion spec (.ok actual) = .ok () ↔
        ∃ e a, newVersion spec = some e ∧ newVersion actual = some a ∧
          compareV e a = 0) ∧
    (checkVersion (str "1.0.0") (.ok (str "1.0.0"))).isOk = true ∧
    (checkVersion (str "1.0.0") (.ok (str "1.1.0"))).isOk = false ∧
    (checkVersion (str "invalid") (.ok (str "1.0.0"))).isOk = false ∧
    (checkVersion (str "1.0.0") (.ok (str "invalid"))).isOk = false ∧
    (checkVersion (str "1.0.0+a") (.ok (str "1.0.0+b"))).isOk = true := by
  refine ⟨?_, by decide, by decide, by decide, by decide, by decide⟩
  intro spec actual
  unfold checkVersion
  rcases he : newVersion spec with _ | e
  · simp [he]
  · rcases ha : newVersion actual with _ | a
    · simp [he, ha]
    · by_cases hc : compareV e a = 0
      · simp [he, ha, hc]
      · simp [he, ha, hc]

/-- C8: the explicit version spec wins whenever non-empty (the file being
ignored, with a warning, exactly when both are given); a file-only input
must exist (a NotFound error otherwise), a file whose base name is exactly
`gop.mod` or `gop.work` yields the capture of `^gop (\d+(\.\d+)*)` against
the start of the content or the empty string when there is no match, any
other file yields its content trimmed of surrounding whitespace, and no
input at all yields the empty spec. -/
theorem resolveVersionInput_spec :
    (∀ (version versionFile : Str) (fs : Str → Option Str),
      version ≠ [] → versionFile ≠ [] →
      resolveVersionInput version versionFile fs = (true, .ok version)) ∧
    (∀ (version : Str) (fs : Str → Option Str),
      version ≠ [] →
      resolveVersionInput version [] fs = (false, .ok version)) ∧
    (∀ (versionFile : Str) (fs : Str → Option Str),
      versionFile ≠ [] → fs versionFile = none →
      ∃ msg, resolveVersionInput [] versionFile fs = (false, .error msg)) ∧
    (∀ (versionFile content : Str) (fs : Str → Option Str),
      versionFile ≠ [] → fs versionFile = some content →
      (baseName versionFile = str "gop.mod" ∨
        baseName versionFile = str "gop.work") →
      (∀ ver, gopModVersionMatch content = some ver →
        resolveVersionInput [] versionFile fs = (false, .ok ver)) ∧
      (gopModVersionMatch content = none →
        resolveVersionInput [] versionFile fs = (false, .ok []))) ∧
    (∀ (versionFile content : Str) (fs : Str → Option Str),
      versionFile ≠ [] → fs versionFile = some content →
      baseName versionFile ≠ str "gop.mod" →
      baseName versionFile ≠ str "gop.work" →
      resolveVersionInput [] versionFile fs =
        (false, .ok (trimSpaceGo content))) ∧
    (∀ fs : Str → Option Str, resolveVersionInput [] [] fs = (false, .ok [])) ∧
    parseGopVersionFile (str "gop.mod")
      (some (str "gop 1.2.3\nrequire (...)\n")) = .ok (str "1.2.3") ∧
    parseGopVersionFile (str "gop.mod") (some (str "invalid content")) =
      .ok (str "") ∧
    parseGopVersionFile (str "version") (some (str "1.1.0\n")) =
      .ok (str "1.1.0") := by
  refine ⟨?_, ?_, ?_, ?_, ?_, ?_, by rfl, by rfl, by rfl⟩
  · intro version versionFile fs hv hf
    unfold resolveVersionInput
    rw [if_pos ⟨hv, hf⟩]
  · intro version fs hv
    unfold resolveVersionInput
    rw [if_neg (by simp [hv]), if_pos hv]
  · intro versionFile fs hf hfs
    unfold resolveVersionInput
    rw [if_neg (by simp), if_neg (by simp), if_pos hf, hfs]
    exact ⟨_, rfl⟩
  · intro versionFile content fs hf hfs hbase
    have hbase' : (baseName versionFile == str "gop.mod" ||
        baseName versionFile == str "gop.work") = true := by
      rcases hbase with h | h <;> simp [h]
    constructor
    · intro ver hver
      unfold resolveVersionInput
      rw [if_neg (by simp), if_neg (by simp), if_pos hf, hfs]
      show (false, parseGopVersionFile versionFile (some content)) = _
      simp only [parseGopVersionFile]
      rw [if_pos hbase', hver]
    · intro hver
      unfold resolveVersionInput
      rw [if_neg (by simp), if_neg (by simp), if_pos hf, hfs]
      show (false, parseGopVersionFile versionFile (some content)) = _
      simp only [parseGopVersionFile]
      rw [if_pos hbase', hver]
  · intro versionFile content fs hf hfs h1 h2
    unfold resolveVersionInput
    rw [if_neg (by simp), if_neg (by simp), if_pos hf, hfs]
    show (false, parseGopVersionFile versionFile (some content)) = _
    simp only [parseGopVersionFile]
    rw [if_neg (by simp [h1, h2])]
  · intro fs
    unfold resolveVersionInput
    rw [if_neg (by simp), if_neg (by simp), if_neg (by simp)]

theorem resolveVersionInput_spec_witness :
    str "1.0.0" ≠ ([] : Str) ∧ str "gop.mod" ≠ ([] : Str) ∧
    resolveVersionInput (str "1.0.0") (str "gop.mod")
      (fun _ => some (str "gop 9.9.9\n")) = (true, .ok (str "1.0.0")) :=
  ⟨by decide, by decide, resolveVersionInput_spec.1 (str "1.0.0")
    (str "gop.mod") (fun _ => some (str "gop 9.9.9\n")) (by decide) (by decide)⟩

/-- C9 counterexample: two valid version strings that differ only in build
metadata are equal in precedence; the loop keeps the first maximum, so
permuting the list changes `maxSatisfying`'s result. -/
theorem maxSatisfying_perm_counterexample :
    ([str "1.0.0+b", str "1.0.0+a"]).Perm [str "1.0.0+a", str "1.0.0+b"] ∧
    (∀ s ∈ [str "1.0.0+a", str "1.0.0+b"], isValidVersion s = true) ∧
    maxSatisfying [str "1.0.0+a", str "1.0.0+b"] (str ">=1.0.0") =
      str "1.0.0+a" ∧
    maxSatisfying [str "1.0.0+b", str "1.0.0+a"] (str ">=1.0.0") =
      str "1.0.0+b" ∧
    str "1.0.0+a" ≠ str "1.0.0+b" := by
  exact ⟨List.Perm.swap (str "1.0.0+a") (str "1.0.0+b") [],
    by decide, by decide, by decide, by decide⟩

/-- C9 (amended): `maxSatisfying` is invariant under permutation of the
candidate list provided no two distinct entries parse to versions of equal
semantic precedence (entries differing only in build metadata break this);
only the precedence of the result is invariant in general. -/
theorem maxSatisfying_perm_invariant :
    ∀ (l₁ l₂ : List Str) (spec : Str), l₁.Perm l₂ →
      (∀ s ∈ l₁, isValidVersion s = true) →
      (∀ s ∈ l₁, ∀ t ∈ l₁, s ≠ t → ∀ v w, newVersion s = some v →
        newVersion t = some w → compareV v w ≠ 0) →
      maxSatisfying l₁ spec = maxSatisfying l₂ spec := by
  intro l₁ l₂ spec hperm hvalid hdist
  unfold maxSatisfying
  rw [exactMatchStep_eq, exactMatchStep_eq]
  by_cases hm : trimPrefixGoStr spec (str "v") ∈ l₁
  · rw [if_pos hm, if_pos (hperm.mem_iff.mp hm)]
  · rw [if_neg hm, if_neg (fun hc => hm (hperm.mem_iff.mpr hc))]
    rcases hc : newConstraint spec with _ | c
    · rfl
    · have hsat : (satList c l₁).Perm (satList c l₂) :=
        (hperm.filterMap newVersion).filter _
      show (match findMax c l₁ with
        | none => ([] : Str)
        | some m => vString m) =
        (match findMax c l₂ with
        | none => ([] : Str)
        | some m => vString m)
      rcases h1 : findMax c l₁ with _ | m₁ <;> rcases h2 : findMax c l₂ with _ | m₂
      · rfl
      · have e1 := findMax_none h1
        have hm2 := (findMax_some h2).1
        have : m₂ ∈ satList c l₁ := hsat.mem_iff.mpr hm2
        rw [e1] at this
        simp at this
      · have e2 := findMax_none h2
        have hm1 := (findMax_some h1).1
        have : m₁ ∈ satList c l₂ := hsat.mem_iff.mp hm1
        rw [e2] at this
        simp at this
      · obtain ⟨hm1, hc1, hmax1⟩ := findMax_some h1
        obtain ⟨hm2, hc2, hmax2⟩ := findMax_some h2
        have hm2' : m₂ ∈ satList c l₁ := hsat.mem_iff.mpr hm2
        have hm1' : m₁ ∈ satList c l₂ := hsat.mem_iff.mp hm1
        have h12 : compareV m₁ m₂ ≤ 0 := hmax2 m₁ hm1'
        have h21 : compareV m₂ m₁ ≤ 0 := hmax1 m₂ hm2'
        have hflip := compareV_flip hc1 hc2
        have hzero : compareV m₁ m₂ = 0 := by omega
        obtain ⟨s₁, hs₁, hp₁⟩ := satList_src hm1
        obtain ⟨s₂, hs₂, hp₂⟩ := satList_src hm2'
        by_cases hss : s₁ = s₂
        · subst hss
          rw [hp₁] at hp₂
          have hme : m₁ = m₂ := by injection hp₂
          rw [hme]
        · exact absurd hzero (hdist s₁ hs₁ s₂ hs₂ hss m₁ m₂ hp₁ hp₂)

theorem maxSatisfying_perm_invariant_witness :
    maxSatisfying [str "1.0.0", str "2.0.0"] (str ">=1.0.0") =
      maxSatisfying [str "2.0.0", str "1.0.0"] (str ">=1.0.0") :=
  maxSatisfying_perm_invariant [str "1.0.0", str "2.0.0"]
    [str "2.0.0", str "1.0.0"] (str ">=1.0.0") (by decide) (by decide)
    (by
      intro s hs t ht hst v w hv hw
      simp only [List.mem_cons, List.not_mem_nil, or_false] at hs ht
      rcases hs with rfl | rfl <;> rcases ht with rfl | rfl
      · exact absurd rfl hst
      · rw [show newVersion (str "1.0.0") = some ⟨1, 0, 0, [], []⟩ from rfl] at hv
        rw [show newVersion (str "2.0.0") = some ⟨2, 0, 0, [], []⟩ from rfl] at hw
        injection hv with hv
        injection hw with hw
        rw [← hv, ← hw]
        decide
      · rw [show newVersion (str "2.0.0") = some ⟨2, 0, 0, [], []⟩ from rfl] at hv
        rw [show newVersion (str "1.0.0") = some ⟨1, 0, 0, [], []⟩ from rfl] at hw
        injection hv with hv
        injection hw with hw
        rw [← hv, ← hw]
        decide
      · exact absurd rfl hst)

end SetupGop
